import Mathlib

/-!
Verification of the terrain-generation core (`stream_tree.rs`, `generator.rs`).

Shallow embedding conventions:
* `f64` values are embedded as `ℚ` (exact arithmetic; the claims under study
  are about comparisons and algebraic structure, not rounding).
* Rust vectors indexed by site are embedded as total functions `ℕ → _`;
  all theorems restrict attention to indices `< num`.
* The two transcendental `f64` operations the code uses (`tan`, `powf`) are
  passed in as an abstract `FloatOps` record; every claim involving them uses
  the same record on both sides, so theorems quantify over it.
* Unbounded `while`/`loop` constructs are embedded with explicit fuel; for
  each of them a lemma shows the chosen fuel reaches the loop's own exit
  condition, which is the embedded form of the termination argument.
-/

/-- `RidgeElement` from `stream_tree.rs`: queue entry `(index, dist)`. -/
structure RidgeElement where
  index : ℕ
  dist : ℚ
deriving DecidableEq, Repr

/-- `RidgeElement::evaluate`: returns the `dist` key. -/
def RidgeElement.evaluate (e : RidgeElement) : ℚ := e.dist

/-- `Ord for RidgeElement`: `other.evaluate().partial_cmp(&self.evaluate())`.
Note the operands: the comparison is *reversed* (the standard Rust idiom for
turning `BinaryHeap` into a min-heap). `partial_cmp` on non-NaN floats is the
total order, embedded here on `ℚ`. -/
def RidgeElement.cmp (self other : RidgeElement) : Ordering :=
  if other.evaluate < self.evaluate then Ordering.lt
  else if other.evaluate = self.evaluate then Ordering.eq
  else Ordering.gt

/-- The greatest element of a list in the `RidgeElement` `Ord` (leftmost among
ties), i.e. what `BinaryHeap::pop` returns. Since the `Ord` is reversed, this
is the entry with the least `dist`. -/
def heapMax : List RidgeElement → Option RidgeElement
  | [] => none
  | e :: rest =>
    match heapMax rest with
    | none => some e
    | some m => if RidgeElement.cmp e m = Ordering.lt then some m else some e

/-- `BinaryHeap::pop`, modelled on a list holding the heap's contents:
removes and returns a greatest element in the `RidgeElement` `Ord`. -/
def ridgePop (q : List RidgeElement) : Option (RidgeElement × List RidgeElement) :=
  match heapMax q with
  | none => none
  | some m => some (m, q.erase m)

/-! ## Phase A — initial steepest-descent forest (`construct_initial_stream_tree`) -/

/-- The inner neighbor scan of `construct_initial_stream_tree`: threads the
accumulator `(steepest_slope, next[i])` through the neighbor list.  The Rust
guard `elevations[i] > elevations[j]` and test `down_hill_slope > steepest_slope`
appear as `elev ja.1 < elev i` and `ss < slope`. -/
def pickSteepest (elev : ℕ → ℚ) (i : ℕ) : ℚ × ℕ → List (ℕ × ℚ) → ℚ × ℕ
  | acc, [] => acc
  | (ss, cur), ja :: rest =>
    if elev ja.1 < elev i then
      if ss < (elev i - elev ja.1) / ja.2 then
        pickSteepest elev i ((elev i - elev ja.1) / ja.2, ja.1) rest
      else pickSteepest elev i (ss, cur) rest
    else pickSteepest elev i (ss, cur) rest

/-- `StreamTree::construct_initial_stream_tree`.  `next` starts as the
identity (`(0..num).collect()`); each non-outlet site i runs the neighbor
scan with `steepest_slope = 0.0`, updating `next[i]`. -/
def construct_initial_stream_tree (num : ℕ) (elev : ℕ → ℚ)
    (nbrs : ℕ → List (ℕ × ℚ)) (is_outlet : ℕ → Bool) : ℕ → ℕ :=
  (List.range num).foldl
    (fun next i =>
      if is_outlet i then next
      else Function.update next i (pickSteepest elev i (0, next i) (nbrs i)).2)
    id

/-- Downhill condition `elevations[i] > elevations[j]` for a neighbor entry. -/
def lowerAt (elev : ℕ → ℚ) (i : ℕ) (p : ℕ × ℚ) : Prop := elev p.1 < elev i

/-- `down_hill_slope` for a neighbor entry. -/
def slopeAt (elev : ℕ → ℚ) (i : ℕ) (p : ℕ × ℚ) : ℚ := (elev i - elev p.1) / p.2

instance (elev : ℕ → ℚ) (i : ℕ) (p : ℕ × ℚ) : Decidable (lowerAt elev i p) := by
  unfold lowerAt; infer_instance

/-! Shared concrete fixtures used by witnesses: a 3-site chain
`0 —(1)— 1 —(1)— 2` with outlet 0 where the middle site is a local minimum
(`elev = [0, 5, 3]`), so Phase A creates a lake at site 2. -/

/-- Witness elevations `[0, 5, 3]`. -/
def elevW : ℕ → ℚ := fun i => if i = 0 then 0 else if i = 1 then 5 else 3

/-- Witness neighbor lists of the chain graph `0 — 1 — 2`, edge distance 1. -/
def nbrsW : ℕ → List (ℕ × ℚ) := fun i =>
  if i = 0 then [(1, 1)] else if i = 1 then [(0, 1), (2, 1)] else if i = 2 then [(1, 1)] else []

/-- Witness outlet table: site 0 is the only outlet. -/
def outW : ℕ → Bool := fun i => i == 0

/-- The loop guard `subroot[iv].is_none() && iv != next[iv]` of both Phase B
walks. -/
def seekCond (next : ℕ → ℕ) (sr : ℕ → Option ℕ) (iv : ℕ) : Prop :=
  sr iv = none ∧ iv ≠ next iv

instance (next : ℕ → ℕ) (sr : ℕ → Option ℕ) (iv : ℕ) :
    Decidable (seekCond next sr iv) := by
  unfold seekCond; infer_instance

/-- First Phase B walk: advance `iv = next[iv]` while the guard holds. -/
def walkSeek (next : ℕ → ℕ) (sr : ℕ → Option ℕ) : ℕ → ℕ → ℕ
  | 0, iv => iv
  | fuel+1, iv => if seekCond next sr iv then walkSeek next sr fuel (next iv) else iv

/-- Second Phase B walk: write `ir` into `subroot` along the path, and also
at the final site (the assignment after the loop). -/
def markPath (next : ℕ → ℕ) (ir : Option ℕ) : ℕ → (ℕ → Option ℕ) → ℕ → (ℕ → Option ℕ)
  | 0, sr, iv => Function.update sr iv ir
  | fuel+1, sr, iv =>
    if seekCond next sr iv then markPath next ir fuel (Function.update sr iv ir) (next iv)
    else Function.update sr iv ir

/-- One iteration of the outer Phase B loop: skip if `subroot[i]` is set,
otherwise walk to the terminal `iv`, choose `ir` (`Some(iv)` raising
`has_lake` when the terminal is unlabelled, else its label) and write it
along the path from `i`. -/
def frwlStep (num : ℕ) (next : ℕ → ℕ) (acc : (ℕ → Option ℕ) × Bool) (i : ℕ) :
    (ℕ → Option ℕ) × Bool :=
  if (acc.1 i).isSome then acc
  else
    (markPath next
      (if acc.1 (walkSeek next acc.1 num i) = none
       then some (walkSeek next acc.1 num i)
       else acc.1 (walkSeek next acc.1 num i)) num acc.1 i,
     if acc.1 (walkSeek next acc.1 num i) = none then true else acc.2)

/-- `StreamTree::find_roots_with_lakes`: `subroot` starts as `Some i` exactly
at outlets, and every site of `0..num` is processed in order. -/
def find_roots_with_lakes (num : ℕ) (is_outlet : ℕ → Bool) (next : ℕ → ℕ) :
    (ℕ → Option ℕ) × Bool :=
  (List.range num).foldl (frwlStep num next)
    (fun i => if is_outlet i then some i else none, false)

/-- Invariant of the Phase B fold. -/
structure SRInv (num : ℕ) (is_outlet : ℕ → Bool) (next : ℕ → ℕ)
    (sr : ℕ → Option ℕ) (hl : Bool) : Prop where
  outlet_self : ∀ o, o < num → is_outlet o = true → sr o = some o
  selfloop_own : ∀ x, x < num → next x = x → sr x = none ∨ sr x = some x
  coherent : ∀ i r, i < num → sr i = some r →
    sr (next i) = some r ∧ r < num ∧ sr r = some r ∧
    (is_outlet r = true ∨ next r = r) ∧ (∃ n, next^[n] i = r) ∧
    (hl = false → is_outlet r = true)

/-! ## Phase C — lake removal (`remove_lakes_from_stream_tree`) -/

/-- The flow-flipping inner loop of the carve step: walk `k` along `next`
until a self-loop, re-pointing each visited site at its predecessor; the
final self-loop site is pointed at the last predecessor. Fuel-bounded; the
descent shape makes fuel `num` sufficient. -/
def carveFlip : ℕ → (ℕ → ℕ) → ℕ → ℕ → (ℕ → ℕ)
  | 0, next, k, nk => Function.update next k nk
  | fuel+1, next, k, nk =>
    if next k ≠ k then carveFlip fuel (Function.update next k nk) (next k) k
    else Function.update next k nk

/-- State of the Phase C loop: the pending ridge queue, the per-site final
root (optional), the visited bitset, and the mutable `next` forest. -/
structure LakeState where
  queue : List RidgeElement
  root : ℕ → Option ℕ
  visited : ℕ → Bool
  next : ℕ → ℕ

/-- Processing of the neighbors of a popped site `i`: each unvisited
neighbor of an undrained lake triggers a carve and a root propagation, and
every unvisited neighbor is pushed with its edge distance. -/
def processNeighbors (num : ℕ) (subroot : ℕ → ℕ) (i : ℕ) (nbrs_i : List (ℕ × ℚ))
    (s : LakeState) : LakeState :=
  nbrs_i.foldl
    (fun s ja =>
      if s.visited ja.1 then s
      else
        let s' :=
          if (s.root (subroot ja.1)).isNone then
            { s with
              next := carveFlip num s.next ja.1 i,
              root := Function.update s.root (subroot ja.1) (s.root (subroot i)) }
          else s
        { s' with queue := ⟨ja.1, ja.2⟩ :: s'.queue })
    s

/-- The main Phase C loop: pop, skip if visited, else process neighbors,
set `root[i]` and mark visited. -/
def lakeLoop (num : ℕ) (subroot : ℕ → ℕ) (nbrs : ℕ → List (ℕ × ℚ)) :
    ℕ → LakeState → LakeState
  | 0, s => s
  | fuel+1, s =>
    match ridgePop s.queue with
    | none => s
    | some (e, rest) =>
      if s.visited e.index then lakeLoop num subroot nbrs fuel { s with queue := rest }
      else
        let s' := processNeighbors num subroot e.index (nbrs e.index) { s with queue := rest }
        lakeLoop num subroot nbrs fuel
          { s' with
            root := Function.update s'.root e.index (s'.root (subroot e.index)),
            visited := Function.update s'.visited e.index true }

/-- Maximum neighbor-list length, used only to size the loop fuel. -/
def maxDeg (num : ℕ) (nbrs : ℕ → List (ℕ × ℚ)) : ℕ :=
  (List.range num).foldl (fun m i => max m (nbrs i).length) 0

/-- Fuel bound for the Phase C loop: every iteration pops one element, and
pushes happen only when a new site is marked visited. -/
def lakeFuel (num : ℕ) (nbrs : ℕ → List (ℕ × ℚ)) (outlets : List ℕ) : ℕ :=
  outlets.length + (maxDeg num nbrs + 1) * num + 1

/-- `StreamTree::remove_lakes_from_stream_tree`. -/
def remove_lakes_from_stream_tree (next : ℕ → ℕ) (num : ℕ) (nbrs : ℕ → List (ℕ × ℚ))
    (outlets : List ℕ) (subroot : ℕ → ℕ) : ℕ → ℕ :=
  (lakeLoop num subroot nbrs (lakeFuel num nbrs outlets)
    { queue := outlets.foldl (fun q o => (⟨o, 0⟩ : RidgeElement) :: q) []
      root := outlets.foldl (fun r o => Function.update r o (some o)) (fun _ => none)
      visited := fun _ => false
      next := next }).next

/-- `StreamTree::construct`: Phase A, Phase B, early return when no lake,
else Phase C.  The Phase B `unwrap` is embedded as `getD i`; `claim_C8` shows
the default is never used for in-range sites. -/
def StreamTree.construct (num : ℕ) (elev : ℕ → ℚ) (nbrs : ℕ → List (ℕ × ℚ))
    (outlets : List ℕ) : ℕ → ℕ :=
  let is_outlet := fun i => outlets.contains i
  let next := construct_initial_stream_tree num elev nbrs is_outlet
  let fr := find_roots_with_lakes num is_outlet next
  if fr.2 = false then next
  else remove_lakes_from_stream_tree next num nbrs outlets (fun i => (fr.1 i).getD i)

/-! ## Generator (`generator.rs`) -/

/-- `TerrainAttributes` from `core/attributes.rs` (as used by the generator). -/
structure TerrainAttributes where
  uplift_rate : ℚ
  erodibility : ℚ
  base_altitude : ℚ
  max_slope : Option ℚ
deriving DecidableEq, Inhabited, Repr

/-- The two transcendental `f64` operations the generator uses (`tan` on the
max-slope angle, `powf` for `drainage_area^m`): kept abstract, every theorem
quantifies over them. -/
structure FloatOps where
  tan : ℚ → ℚ
  powf : ℚ → ℚ → ℚ

/-- The model capability set consumed by `generate` (spec §6): site count,
areas, neighbor enumeration, `has_edge`, outlets. -/
structure Model where
  num : ℕ
  areas : ℕ → ℚ
  nbrs : ℕ → List (ℕ × ℚ)
  has_edge : ℕ → ℕ → Bool × ℚ
  outlets : List ℕ

/-- `TerrainGenerator` configuration fields. -/
structure TerrainGenerator where
  model : Option Model
  attributes : Option (List TerrainAttributes)
  max_iteration : Option ℕ
  m_exp : Option ℚ

/-- `Default for TerrainGenerator`. -/
instance : Inhabited TerrainGenerator := ⟨⟨none, none, none, none⟩⟩

/-- `set_model`. -/
def TerrainGenerator.set_model (tg : TerrainGenerator) (m : Model) : TerrainGenerator :=
  { tg with model := some m }

/-- `set_attributes`. -/
def TerrainGenerator.set_attributes (tg : TerrainGenerator)
    (a : List TerrainAttributes) : TerrainGenerator :=
  { tg with attributes := some a }

/-- `set_max_iteration`. -/
def TerrainGenerator.set_max_iteration (tg : TerrainGenerator) (k : ℕ) : TerrainGenerator :=
  { tg with max_iteration := some k }

/-- `set_exponent_m`. -/
def TerrainGenerator.set_exponent_m (tg : TerrainGenerator) (m : ℚ) : TerrainGenerator :=
  { tg with m_exp := some m }

/-- The configuration errors `generate` can return. -/
inductive GenError where
  | missingModel
  | missingAttributes
  | attributeCountMismatch
deriving DecidableEq, Repr

/-- Basin membership: the forest path from `i` reaches `o` within `num`
steps (paths in an `N`-site forest that reach `o` at all do so within `N`
steps). -/
def InBasin (nextf : ℕ → ℕ) (num o i : ℕ) : Prop :=
  ∃ n ∈ List.range (num + 1), nextf^[n] i = o

instance (nextf : ℕ → ℕ) (num o i : ℕ) : Decidable (InBasin nextf num o i) := by
  unfold InBasin; infer_instance

/-- Boolean basin membership used by the executable traversal order. -/
def inBasinB (nextf : ℕ → ℕ) (num o i : ℕ) : Bool :=
  (List.range (num + 1)).any (fun n => nextf^[n] i == o)

/-- Path distance from `i` to the outlet `o` (first hit), `num + 1` if none. -/
def depthOf (nextf : ℕ → ℕ) (num o i : ℕ) : ℕ :=
  (((List.range (num + 1)).filter (fun n => nextf^[n] i == o)).head?).getD (num + 1)

/-- Modelled from the spec: `DrainageBasin::construct` together with
`for_each_downstream` — the file `drainage_basin.rs` is not among the
sources under verification (only `generator.rs` calls into it).  Spec §4.2:
enumerate exactly the sites of the basin of `o`, every site after all sites
upstream of it.  Here sites are bucketed by path distance to the outlet,
deepest first, which realizes that ordering deterministically. -/
def downstreamOrder (nextf : ℕ → ℕ) (num o : ℕ) : List ℕ :=
  (((List.range (num + 1)).reverse).map
    (fun d => (List.range num).filter
      (fun i => inBasinB nextf num o i && (depthOf nextf num o i == d)))).flatten

/-- The Rust downstream accumulation closure over one basin order. -/
def drainagePass (nextf : ℕ → ℕ) (order : List ℕ) (da : ℕ → ℚ) : ℕ → ℚ :=
  order.foldl
    (fun da i =>
      if nextf i ≠ i then Function.update da (nextf i) (da (nextf i) + da i) else da)
    da

/-- The Rust response-time closure over one basin order (`+=` on an entry
that starts at `0` and is written exactly once). -/
def responsePass (fops : FloatOps) (attrs : ℕ → TerrainAttributes)
    (has_edge : ℕ → ℕ → Bool × ℚ) (nextf : ℕ → ℕ) (m_exp : ℚ) (da : ℕ → ℚ)
    (order : List ℕ) (rt : ℕ → ℚ) : ℕ → ℚ :=
  order.foldl
    (fun rt i =>
      Function.update rt i (rt i +
        (rt (nextf i) +
          1 / ((attrs i).erodibility * fops.powf (da i) m_exp) *
            (if (has_edge i (nextf i)).1 then (has_edge i (nextf i)).2 else 0))))
    rt

/-- The Rust altitude-update closure over one basin order, threading the
`changed` flag. -/
def elevPass (fops : FloatOps) (attrs : ℕ → TerrainAttributes)
    (has_edge : ℕ → ℕ → Bool × ℚ) (nextf : ℕ → ℕ) (rt : ℕ → ℚ) (o : ℕ)
    (order : List ℕ) (acc : (ℕ → ℚ) × Bool) : (ℕ → ℚ) × Bool :=
  order.foldl
    (fun acc i =>
      let new0 := acc.1 o + (attrs i).uplift_rate * max (rt i - rt o) 0
      let new :=
        match (attrs i).max_slope with
        | none => new0
        | some ang =>
          let d := if (has_edge i (nextf i)).1 then (has_edge i (nextf i)).2 else 1
          if fops.tan ang < (new0 - acc.1 (nextf i)) / d
          then acc.1 (nextf i) + fops.tan ang * d
          else new0
      (Function.update acc.1 i new, acc.2 || decide (new ≠ acc.1 i)))
    acc

/-- One iteration of the `generate` main loop: build the stream tree, then
for every outlet run the three basin passes. Returns the new altitudes and
the `changed` flag. -/
def onePass (model : Model) (fops : FloatOps) (m_exp : ℚ)
    (attrs : ℕ → TerrainAttributes) (alt : ℕ → ℚ) : (ℕ → ℚ) × Bool :=
  let nextf := StreamTree.construct model.num alt model.nbrs model.outlets
  let st := model.outlets.foldl
    (fun (st : ((ℕ → ℚ) × Bool) × (ℕ → ℚ) × (ℕ → ℚ)) outlet =>
      let order := downstreamOrder nextf model.num outlet
      let da := drainagePass nextf order st.2.1
      let rt := responsePass fops attrs model.has_edge nextf m_exp da order.reverse st.2.2
      let ac := elevPass fops attrs model.has_edge nextf rt outlet order.reverse st.1
      (ac, da, rt))
    ((alt, false), model.areas, fun _ => 0)
  st.1

/-- The `loop { ... }` of `generate`, fuel-bounded, also counting the number
of executed passes: run a pass; stop if unchanged; else increment `step` and
stop when `step >= max_iteration`. -/
def mainLoopGo (model : Model) (fops : FloatOps) (m_exp : ℚ)
    (attrs : ℕ → TerrainAttributes) :
    Option ℕ → ℕ → (ℕ → ℚ) → ℕ → (ℕ → ℚ) × ℕ
  | _, 0, alt, _ => (alt, 0)
  | none, fuel+1, alt, step =>
    let pc := onePass model fops m_exp attrs alt
    if pc.2 = false then (pc.1, 1)
    else
      let r := mainLoopGo model fops m_exp attrs none fuel pc.1 (step + 1)
      (r.1, r.2 + 1)
  | some k, fuel+1, alt, step =>
    let pc := onePass model fops m_exp attrs alt
    if pc.2 = false then (pc.1, 1)
    else if k ≤ step + 1 then (pc.1, 1)
    else
      let r := mainLoopGo model fops m_exp attrs (some k) fuel pc.1 (step + 1)
      (r.1, r.2 + 1)

/-- `TerrainGenerator::generate`.  Validation mirrors the Rust order: model
first, then attributes, then the length check; the default `m = 0.5` is
applied afterwards.  The result models
`model.create_terrain_from_result(&altitudes)` by returning the altitude
vector itself.  `fuel` bounds the (possibly diverging) uncapped loop; errors
are decided before the loop and are independent of it. -/
def TerrainGenerator.generate (tg : TerrainGenerator) (fops : FloatOps) (fuel : ℕ) :
    Except GenError (List ℚ) :=
  match tg.model with
  | none => Except.error GenError.missingModel
  | some model =>
    match tg.attributes with
    | none => Except.error GenError.missingAttributes
    | some attributes =>
      if attributes.length ≠ model.num then Except.error GenError.attributeCountMismatch
      else
        let m_exp := tg.m_exp.getD (1/2)
        let attrs := fun i => (attributes.get? i).getD default
        let alt0 := fun i => (attrs i).base_altitude
        let r := mainLoopGo model fops m_exp attrs tg.max_iteration fuel alt0 0
        Except.ok ((List.range model.num).map r.1)

/-- Shared concrete fixture: one site, no outlets, no edges. -/
def modelW1 : Model :=
  { num := 1, areas := fun _ => 1, nbrs := fun _ => [],
    has_edge := fun _ _ => (false, 0), outlets := [] }

/-- Shared concrete fixture: a fully configured generator over `modelW1`
whose single site has base altitude 7. -/
def tgW1 : TerrainGenerator :=
  { model := some modelW1, attributes := some [⟨0, 1, 7, none⟩],
    max_iteration := none, m_exp := none }

/-- Shared concrete interpretation of the abstract float operations. -/
def fops0 : FloatOps := ⟨fun x => x, fun x _ => x⟩

/-- Validity of a downstream iteration order (spec §4.2): every site of the
list either is the outlet (self-loop) or has its downstream target strictly
later in the list. -/
def downOK (nextf : ℕ → ℕ) (o : ℕ) : List ℕ → Prop
  | [] => True
  | i :: rest => (i = o ∨ (nextf i ≠ i ∧ nextf i ∈ rest)) ∧ downOK nextf o rest

instance (nextf : ℕ → ℕ) (o : ℕ) : ∀ (L : List ℕ), Decidable (downOK nextf o L)
  | [] => by unfold downOK; infer_instance
  | i :: rest => by
    unfold downOK
    have := instDecidableDownOK nextf o rest
    infer_instance

/-- Validity of an upstream iteration order w.r.t. already-processed sites
`seen` (spec §4.2): every site's downstream target is itself (the outlet) or
was processed earlier. -/
def upOK (nextf : ℕ → ℕ) : List ℕ → List ℕ → Prop
  | _, [] => True
  | seen, i :: rest => (nextf i = i ∨ nextf i ∈ seen) ∧ upOK nextf (i :: seen) rest

instance instDecidableUpOK (nextf : ℕ → ℕ) :
    ∀ (seen L : List ℕ), Decidable (upOK nextf seen L)
  | _, [] => by unfold upOK; infer_instance
  | seen, i :: rest => by
    unfold upOK
    have := instDecidableUpOK nextf (i :: seen) rest
    infer_instance

/-- Shared witness fixtures for the basin-pass claims. -/
def heW : ℕ → ℕ → Bool × ℚ := fun i j => (i != j, 1)

/-- Constant-zero rational vector. -/
def zf : ℕ → ℚ := fun _ => 0

/-- Constant-one rational vector. -/
def onef : ℕ → ℚ := fun _ => 1

/-- The forest sending every site to 0. -/
def zn : ℕ → ℕ := fun _ => 0

/-- Default attributes at every site. -/
def attrsW : ℕ → TerrainAttributes := fun _ => default

/-- The value the upstream elevation pass stores at site `i`: the spec's
`elevation[o] + uplift_rate[i] * max(0, rt[i] - rt[o])`, clamped to
`elevation[j] + tan(max_slope[i]) * d` when the slope toward the downstream
neighbor `j = next[i]` exceeds `tan(max_slope[i])` (with `d` the edge
distance of `(i,j)` when that edge exists, else 1).  `A` is the outlet
elevation read by the pass and `aj` the downstream neighbor's (already
updated) elevation. -/
def elevFormula (fops : FloatOps) (attrs : ℕ → TerrainAttributes)
    (has_edge : ℕ → ℕ → Bool × ℚ) (nextf : ℕ → ℕ) (rt : ℕ → ℚ) (o : ℕ)
    (A : ℚ) (i : ℕ) (aj : ℚ) : ℚ :=
  match (attrs i).max_slope with
  | none => A + (attrs i).uplift_rate * max (rt i - rt o) 0
  | some ang =>
    if fops.tan ang <
        (A + (attrs i).uplift_rate * max (rt i - rt o) 0 - aj) /
          (if (has_edge i (nextf i)).1 then (has_edge i (nextf i)).2 else 1)
    then aj + fops.tan ang *
          (if (has_edge i (nextf i)).1 then (has_edge i (nextf i)).2 else 1)
    else A + (attrs i).uplift_rate * max (rt i - rt o) 0

/-! ## Phase C correctness (towards C2) -/

/-- A site reaches an outlet by iterating the forest map. -/
def Reaches (nx : ℕ → ℕ) (outlets : List ℕ) (i : ℕ) : Prop :=
  ∃ n, nx^[n] i ∈ outlets

/-- A root-cell lookup says whether a site's lake class has been attached to
an outlet tree: `root[subroot[x]].is_some()` in the Rust code. -/
def drainedS (subroot : ℕ → ℕ) (root : ℕ → Option ℕ) (x : ℕ) : Prop :=
  (root (subroot x)).isSome

instance (subroot : ℕ → ℕ) (root : ℕ → Option ℕ) (x : ℕ) :
    Decidable (drainedS subroot root x) := by
  unfold drainedS; infer_instance

/-- Graph connectivity to an outlet, following neighbor lists from the
outlets outwards (the graph is undirected in the Rust code, so this is
ordinary connectivity). -/
inductive ReachGraph (nbrs : ℕ → List (ℕ × ℚ)) (outlets : List ℕ) : ℕ → Prop where
  | base (o : ℕ) (ho : o ∈ outlets) : ReachGraph nbrs outlets o
  | step (i j : ℕ) (d : ℚ) (hi : ReachGraph nbrs outlets i) (hj : (j, d) ∈ nbrs i) :
      ReachGraph nbrs outlets j

/-- Static facts about the Phase A forest `next₀` and the Phase B subroot
map used throughout the Phase C proof; all are discharged from
`find_roots_spec` and `initial_tree_shape` when `StreamTree.construct` is
analyzed. -/
structure CarveCtx (num : ℕ) (next₀ subroot : ℕ → ℕ) (outlets : List ℕ)
    (elev : ℕ → ℚ) : Prop where
  n0_range : ∀ x, x < num → next₀ x < num
  n0_desc : ∀ x, x < num → next₀ x = x ∨ elev (next₀ x) < elev x
  sb_range : ∀ x, x < num → subroot x < num
  sb_idem : ∀ x, x < num → subroot (subroot x) = subroot x
  sb_next : ∀ x, x < num → subroot (next₀ x) = subroot x
  sb_reach : ∀ x, x < num → ∃ n, next₀^[n] x = subroot x
  sb_term : ∀ x, x < num → subroot x ∈ outlets ∨ next₀ (subroot x) = subroot x
  sb_out : ∀ o, o ∈ outlets → subroot o = o ∧ next₀ o = o ∧ o < num

/-- Invariant of the Phase C loop state concerning `root` and `next` only:
in-range forest, sites of undrained classes still carry their Phase A edge,
and every drained site reaches an outlet through drained in-range sites. -/
structure CoreInv (num : ℕ) (next₀ subroot : ℕ → ℕ) (outlets : List ℕ)
    (s : LakeState) : Prop where
  nrange : ∀ x, x < num → s.next x < num
  frozen : ∀ x, x < num → ¬ drainedS subroot s.root x → s.next x = next₀ x
  reach : ∀ x, x < num → drainedS subroot s.root x →
    ∃ n, s.next^[n] x ∈ outlets ∧
      ∀ m, m ≤ n → s.next^[m] x < num ∧ drainedS subroot s.root (s.next^[m] x)
  outFix : ∀ o, o ∈ outlets → s.next o = o
  outRoot : ∀ o, o ∈ outlets → (s.root o).isSome

/-- Invariant of the Phase C loop state concerning `queue` and `visited`:
queued indices are in range and drained, every neighbor of a visited site is
visited or queued, every outlet is visited or queued, and visited sites are
in range and drained. -/
structure QueueInv (num : ℕ) (subroot : ℕ → ℕ) (nbrs : ℕ → List (ℕ × ℚ))
    (outlets : List ℕ) (s : LakeState) : Prop where
  qrange : ∀ e, e ∈ s.queue → e.index < num
  qdrained : ∀ e, e ∈ s.queue → drainedS subroot s.root e.index
  pend : ∀ x, s.visited x = true → ∀ p ∈ nbrs x,
    s.visited p.1 = true ∨ ∃ e ∈ s.queue, e.index = p.1
  outSeen : ∀ o, o ∈ outlets → s.visited o = true ∨ ∃ e ∈ s.queue, e.index = o
  visDrained : ∀ x, s.visited x = true → x < num ∧ drainedS subroot s.root x

/-- Number of unvisited in-range sites; with the queue length it forms the
termination measure of the Phase C loop. -/
def unvis (num : ℕ) (s : LakeState) : ℕ :=
  ((Finset.range num).filter (fun x => s.visited x = false)).card

theorem heapMax_mem {q : List RidgeElement} {m : RidgeElement}
    (h : heapMax q = some m) : m ∈ q := by
  induction q generalizing m with
  | nil => simp [heapMax] at h
  | cons e rest ih =>
    rw [heapMax] at h
    split at h
    · next hr =>
      obtain rfl : e = m := by injection h
      exact List.mem_cons_self _ _
    · next m' hr =>
      split at h
      · obtain rfl : m' = m := by injection h
        exact List.mem_cons_of_mem _ (ih hr)
      · obtain rfl : e = m := by injection h
        exact List.mem_cons_self _ _

theorem heapMax_none_iff {q : List RidgeElement} : heapMax q = none ↔ q = [] := by
  constructor
  · intro h
    cases q with
    | nil => rfl
    | cons e rest =>
      simp only [heapMax] at h
      cases hr : heapMax rest with
      | none => rw [hr] at h; simp at h
      | some m' => rw [hr] at h; by_cases hc : RidgeElement.cmp e m' = Ordering.lt <;>
          simp [hc] at h
  · intro h; subst h; rfl

theorem ridge_cmp_lt {a b : RidgeElement} :
    RidgeElement.cmp a b = Ordering.lt ↔ b.dist < a.dist := by
  unfold RidgeElement.cmp RidgeElement.evaluate
  split_ifs with h1 h2
  · simp [h1]
  · simp [h1, h2]
  · simp [h1, h2]

theorem heapMax_least {q : List RidgeElement} {m : RidgeElement}
    (h : heapMax q = some m) : ∀ x ∈ q, m.dist ≤ x.dist := by
  induction q generalizing m with
  | nil => simp [heapMax] at h
  | cons e rest ih =>
    intro x hx
    rw [heapMax] at h
    split at h
    · next hr =>
      obtain rfl : e = m := by injection h
      rcases List.mem_cons.mp hx with rfl | hx'
      · exact le_refl _
      · rw [heapMax_none_iff.mp hr] at hx'; simp at hx'
    · next m' hr =>
      split at h
      · next hc =>
        obtain rfl : m' = m := by injection h
        rcases List.mem_cons.mp hx with rfl | hx'
        · exact le_of_lt (ridge_cmp_lt.mp hc)
        · exact ih hr x hx'
      · next hc =>
        obtain rfl : e = m := by injection h
        rcases List.mem_cons.mp hx with rfl | hx'
        · exact le_refl _
        · have hle : m'.dist ≤ x.dist := ih hr x hx'
          have hnl : ¬ m'.dist < e.dist := fun hlt => hc (ridge_cmp_lt.mpr hlt)
          exact le_trans (le_of_not_lt hnl) hle

theorem ridgePop_mem {q : List RidgeElement} {e : RidgeElement} {rest : List RidgeElement}
    (h : ridgePop q = some (e, rest)) : e ∈ q ∧ rest = q.erase e := by
  unfold ridgePop at h
  cases hm : heapMax q with
  | none => rw [hm] at h; simp at h
  | some m =>
    rw [hm] at h
    simp at h
    obtain ⟨rfl, rfl⟩ := h
    exact ⟨heapMax_mem hm, rfl⟩

theorem ridgePop_length {q : List RidgeElement} {e : RidgeElement} {rest : List RidgeElement}
    (h : ridgePop q = some (e, rest)) : rest.length + 1 = q.length := by
  obtain ⟨hmem, hrest⟩ := ridgePop_mem h
  subst hrest
  rw [List.length_erase_of_mem hmem]
  exact Nat.succ_pred_eq_of_pos (List.length_pos.mpr (List.ne_nil_of_mem hmem))

theorem ridgePop_none_iff {q : List RidgeElement} : ridgePop q = none ↔ q = [] := by
  unfold ridgePop
  cases hm : heapMax q with
  | none => simpa using heapMax_none_iff.mp hm
  | some m =>
    simp only []
    constructor
    · intro h; simp at h
    · intro h; subst h; simp [heapMax] at hm

theorem cist_eval (num : ℕ) (elev : ℕ → ℚ) (nbrs : ℕ → List (ℕ × ℚ))
    (is_outlet : ℕ → Bool) (x : ℕ) :
    construct_initial_stream_tree num elev nbrs is_outlet x =
      if x < num ∧ is_outlet x = false
      then (pickSteepest elev x (0, x) (nbrs x)).2 else x := by
  induction num generalizing x with
  | zero =>
    rw [if_neg (by intro h; exact absurd h.1 (Nat.not_lt_zero x))]
    rfl
  | succ n ih =>
    unfold construct_initial_stream_tree at ih ⊢
    rw [List.range_succ, List.foldl_append, List.foldl_cons, List.foldl_nil]
    set F := (List.range n).foldl
      (fun next i =>
        if is_outlet i then next
        else Function.update next i (pickSteepest elev i (0, next i) (nbrs i)).2)
      id with hF
    have hFn : F n = n := by
      rw [ih n]; rw [if_neg (by intro h; exact absurd h.1 (lt_irrefl n))]
    show (if is_outlet n then F
      else Function.update F n (pickSteepest elev n (0, F n) (nbrs n)).2) x = _
    by_cases ho : is_outlet n
    · rw [if_pos ho]
      rw [ih x]
      by_cases hc1 : x < n ∧ is_outlet x = false
      · rw [if_pos hc1, if_pos ⟨Nat.lt_succ_of_lt hc1.1, hc1.2⟩]
      · rw [if_neg hc1, if_neg ?_]
        intro hc2
        apply hc1
        rcases Nat.lt_succ_iff_lt_or_eq.mp hc2.1 with h | h
        · exact ⟨h, hc2.2⟩
        · subst h; rw [ho] at hc2; exact absurd hc2.2 (by simp)
    · rw [if_neg ho]
      by_cases hx : x = n
      · subst hx
        rw [Function.update_same, hFn,
          if_pos ⟨Nat.lt_succ_self x, Bool.not_eq_true _ ▸ eq_false_of_ne_true ho⟩]
      · rw [Function.update_noteq hx, ih x]
        by_cases hc1 : x < n ∧ is_outlet x = false
        · rw [if_pos hc1, if_pos ⟨Nat.lt_succ_of_lt hc1.1, hc1.2⟩]
        · rw [if_neg hc1, if_neg ?_]
          intro hc2
          apply hc1
          rcases Nat.lt_succ_iff_lt_or_eq.mp hc2.1 with h | h
          · exact ⟨h, hc2.2⟩
          · exact absurd h hx

theorem pickSteepest_char (elev : ℕ → ℚ) (i : ℕ) :
    ∀ (L : List (ℕ × ℚ)) (ss : ℚ) (cur : ℕ),
    (pickSteepest elev i (ss, cur) L = (ss, cur) ∧
      ∀ q ∈ L, lowerAt elev i q → slopeAt elev i q ≤ ss)
    ∨ (∃ L1 p L2, L = L1 ++ p :: L2 ∧ lowerAt elev i p ∧
        pickSteepest elev i (ss, cur) L = (slopeAt elev i p, p.1) ∧
        ss < slopeAt elev i p ∧
        (∀ q ∈ L1, lowerAt elev i q → slopeAt elev i q < slopeAt elev i p) ∧
        (∀ q ∈ L, lowerAt elev i q → slopeAt elev i q ≤ slopeAt elev i p)) := by
  intro L
  induction L with
  | nil =>
    intro ss cur
    left
    exact ⟨rfl, by intro q hq; simp at hq⟩
  | cons p rest ih =>
    intro ss cur
    by_cases hp : lowerAt elev i p
    · by_cases himp : ss < slopeAt elev i p
      · have hstep : pickSteepest elev i (ss, cur) (p :: rest)
            = pickSteepest elev i (slopeAt elev i p, p.1) rest := by
          conv_lhs => unfold pickSteepest
          simp only [lowerAt] at hp
          simp only [slopeAt] at himp
          rw [if_pos hp, if_pos himp]
          rfl
        rcases ih (slopeAt elev i p) p.1 with ⟨hres, hbnd⟩ | ⟨L1, p', L2, hsplit, hlow, hres, hlt, hearly, hall⟩
        · right
          refine ⟨[], p, rest, rfl, hp, ?_, himp, ?_, ?_⟩
          · rw [hstep, hres]
          · intro q hq; simp at hq
          · intro q hq hlq
            rcases List.mem_cons.mp hq with rfl | hq'
            · exact le_refl _
            · exact hbnd q hq' hlq
        · right
          refine ⟨p :: L1, p', L2, by simp [hsplit], hlow, ?_, lt_trans himp hlt, ?_, ?_⟩
          · rw [hstep, hres]
          · intro q hq hlq
            rcases List.mem_cons.mp hq with rfl | hq'
            · exact hlt
            · exact hearly q hq' hlq
          · intro q hq hlq
            rcases List.mem_cons.mp hq with rfl | hq'
            · exact le_of_lt hlt
            · exact hall q (hsplit ▸ hq') hlq
      · have hstep : pickSteepest elev i (ss, cur) (p :: rest)
            = pickSteepest elev i (ss, cur) rest := by
          conv_lhs => unfold pickSteepest
          simp only [lowerAt] at hp
          simp only [slopeAt] at himp
          rw [if_pos hp, if_neg himp]
        rcases ih ss cur with ⟨hres, hbnd⟩ | ⟨L1, p', L2, hsplit, hlow, hres, hlt, hearly, hall⟩
        · left
          refine ⟨by rw [hstep, hres], ?_⟩
          intro q hq hlq
          rcases List.mem_cons.mp hq with rfl | hq'
          · exact le_of_not_lt himp
          · exact hbnd q hq' hlq
        · right
          refine ⟨p :: L1, p', L2, by simp [hsplit], hlow, ?_, hlt, ?_, ?_⟩
          · rw [hstep, hres]
          · intro q hq hlq
            rcases List.mem_cons.mp hq with rfl | hq'
            · exact lt_of_le_of_lt (le_of_not_lt himp) hlt
            · exact hearly q hq' hlq
          · intro q hq hlq
            rcases List.mem_cons.mp hq with rfl | hq'
            · exact le_of_lt (lt_of_le_of_lt (le_of_not_lt himp) hlt)
            · exact hall q (hsplit ▸ hq') hlq
    · have hstep : pickSteepest elev i (ss, cur) (p :: rest)
          = pickSteepest elev i (ss, cur) rest := by
        conv_lhs => unfold pickSteepest
        simp only [lowerAt] at hp
        rw [if_neg hp]
      rcases ih ss cur with ⟨hres, hbnd⟩ | ⟨L1, p', L2, hsplit, hlow, hres, hlt, hearly, hall⟩
      · left
        refine ⟨by rw [hstep, hres], ?_⟩
        intro q hq hlq
        rcases List.mem_cons.mp hq with rfl | hq'
        · exact absurd hlq hp
        · exact hbnd q hq' hlq
      · right
        refine ⟨p :: L1, p', L2, by simp [hsplit], hlow, ?_, hlt, ?_, ?_⟩
        · rw [hstep, hres]
        · intro q hq hlq
          rcases List.mem_cons.mp hq with rfl | hq'
          · exact absurd hlq hp
          · exact hearly q hq' hlq
        · intro q hq hlq
          rcases List.mem_cons.mp hq with rfl | hq'
          · exact absurd hlq hp
          · exact hall q (hsplit ▸ hq') hlq

/-- The picked site is either the initial candidate or a strictly lower
neighbor (used to establish the descent shape of the Phase A forest). -/
theorem pickSteepest_lower (elev : ℕ → ℚ) (i : ℕ) :
    ∀ (L : List (ℕ × ℚ)) (ss : ℚ) (cur : ℕ),
    (pickSteepest elev i (ss, cur) L).2 = cur ∨
      ∃ p ∈ L, (pickSteepest elev i (ss, cur) L).2 = p.1 ∧ elev p.1 < elev i := by
  intro L
  induction L with
  | nil => intro ss cur; left; rfl
  | cons p rest ih =>
    intro ss cur
    by_cases hp : elev p.1 < elev i
    · by_cases himp : ss < (elev i - elev p.1) / p.2
      · have hstep : pickSteepest elev i (ss, cur) (p :: rest)
            = pickSteepest elev i ((elev i - elev p.1) / p.2, p.1) rest := by
          conv_lhs => unfold pickSteepest
          rw [if_pos hp, if_pos himp]
        rw [hstep]
        rcases ih ((elev i - elev p.1) / p.2) p.1 with h | ⟨q, hq, hres, hlq⟩
        · right; exact ⟨p, List.mem_cons_self _ _, h, hp⟩
        · right; exact ⟨q, List.mem_cons_of_mem _ hq, hres, hlq⟩
      · have hstep : pickSteepest elev i (ss, cur) (p :: rest)
            = pickSteepest elev i (ss, cur) rest := by
          conv_lhs => unfold pickSteepest
          rw [if_pos hp, if_neg himp]
        rw [hstep]
        rcases ih ss cur with h | ⟨q, hq, hres, hlq⟩
        · left; exact h
        · right; exact ⟨q, List.mem_cons_of_mem _ hq, hres, hlq⟩
    · have hstep : pickSteepest elev i (ss, cur) (p :: rest)
          = pickSteepest elev i (ss, cur) rest := by
        conv_lhs => unfold pickSteepest
        rw [if_neg hp]
      rw [hstep]
      rcases ih ss cur with h | ⟨q, hq, hres, hlq⟩
      · left; exact h
      · right; exact ⟨q, List.mem_cons_of_mem _ hq, hres, hlq⟩

/-- Shape of the Phase A output: every site either self-loops or points to a
strictly lower neighbor taken from its neighbor list. -/
theorem initial_tree_shape (num : ℕ) (elev : ℕ → ℚ) (nbrs : ℕ → List (ℕ × ℚ))
    (is_outlet : ℕ → Bool) (x : ℕ) :
    construct_initial_stream_tree num elev nbrs is_outlet x = x ∨
      (elev (construct_initial_stream_tree num elev nbrs is_outlet x) < elev x ∧
        ∃ p ∈ nbrs x, construct_initial_stream_tree num elev nbrs is_outlet x = p.1) := by
  rw [cist_eval]
  by_cases hc : x < num ∧ is_outlet x = false
  · rw [if_pos hc]
    rcases pickSteepest_lower elev x (nbrs x) 0 x with h | ⟨p, hp, hres, hlp⟩
    · left; exact h
    · right; exact ⟨hres ▸ hlp, p, hp, hres⟩
  · rw [if_neg hc]; left; rfl

/-- Outlets are skipped by Phase A and keep their self-loop. -/
theorem initial_tree_outlet (num : ℕ) (elev : ℕ → ℚ) (nbrs : ℕ → List (ℕ × ℚ))
    (is_outlet : ℕ → Bool) (x : ℕ) (ho : is_outlet x = true) :
    construct_initial_stream_tree num elev nbrs is_outlet x = x := by
  rw [cist_eval]
  rw [if_neg (by intro h; rw [ho] at h; exact absurd h.2 (by simp))]

/-- **C7.** After Phase A, a non-outlet site points to the first neighbor in
enumeration order attaining the strict maximum downhill slope among strictly
lower neighbors; with no strictly lower neighbor it keeps its self-loop, and
outlets always keep their self-loop.  Positive edge distances (spec §3) are
assumed so that every downhill slope beats the initial `steepest_slope = 0`. -/
theorem claim_C7_initial_forest (num : ℕ) (elev : ℕ → ℚ) (nbrs : ℕ → List (ℕ × ℚ))
    (is_outlet : ℕ → Bool) (i : ℕ) (hi : i < num)
    (hd : ∀ p ∈ nbrs i, 0 < p.2) :
    (is_outlet i = true → construct_initial_stream_tree num elev nbrs is_outlet i = i) ∧
    (is_outlet i = false →
      ((∀ p ∈ nbrs i, ¬ elev p.1 < elev i) →
          construct_initial_stream_tree num elev nbrs is_outlet i = i) ∧
      (∀ p₀ ∈ nbrs i, elev p₀.1 < elev i →
        ∃ L1 p L2, nbrs i = L1 ++ p :: L2 ∧ lowerAt elev i p ∧
          construct_initial_stream_tree num elev nbrs is_outlet i = p.1 ∧
          (∀ q ∈ L1, lowerAt elev i q → slopeAt elev i q < slopeAt elev i p) ∧
          (∀ q ∈ nbrs i, lowerAt elev i q → slopeAt elev i q ≤ slopeAt elev i p))) := by
  constructor
  · intro ho; exact initial_tree_outlet num elev nbrs is_outlet i ho
  · intro ho
    constructor
    · intro hnl
      rw [cist_eval, if_pos ⟨hi, ho⟩]
      rcases pickSteepest_char elev i (nbrs i) 0 i with ⟨hres, _⟩ | ⟨L1, p, L2, hsplit, hlow, _, _, _, _⟩
      · rw [hres]
      · exact absurd hlow (hnl p (by rw [hsplit]; exact List.mem_append_right _ (List.mem_cons_self _ _)))
    · intro p₀ hp₀ hlp₀
      rcases pickSteepest_char elev i (nbrs i) 0 i with ⟨_, hbnd⟩ | ⟨L1, p, L2, hsplit, hlow, hres, _, hearly, hall⟩
      · exfalso
        have hs : 0 < slopeAt elev i p₀ :=
          div_pos (by linarith [hlp₀]) (hd p₀ hp₀)
        have := hbnd p₀ hp₀ hlp₀
        linarith
      · refine ⟨L1, p, L2, hsplit, hlow, ?_, hearly, hall⟩
        rw [cist_eval, if_pos ⟨hi, ho⟩, hres]

theorem claim_C7_witness :
    construct_initial_stream_tree 3 elevW nbrsW outW 2 = 2 := by
  obtain ⟨-, h2⟩ := claim_C7_initial_forest 3 elevW nbrsW outW 2 (by decide) (by decide)
  exact (h2 (by decide)).1 (by decide)

/-- **C1 (counterexample).** With the queue holding `(0, dist 2)` and
`(1, dist 5)`, a pop returns the element with dist 2 although 5 is in the
queue and `¬ (5 ≤ 2)`: the popped element does *not* have the greatest dist.
The `Ord` impl compares `other` to `self`, so `BinaryHeap` is a min-heap. -/
theorem claim_C1_counterexample :
    ridgePop [⟨0, 2⟩, ⟨1, 5⟩] = some (⟨0, 2⟩, [⟨1, 5⟩]) ∧ ¬ ((5:ℚ) ≤ 2) := by
  exact ⟨rfl, by decide⟩

/-- **C1 (amended).** The ridge queue is a *min*-priority queue on `dist`:
whenever the carving loop pops an element, the popped element has the least
`dist` among all elements currently in the queue. -/
theorem claim_C1_ridge_queue_min (q : List RidgeElement) (e : RidgeElement)
    (rest : List RidgeElement) (h : ridgePop q = some (e, rest)) :
    e ∈ q ∧ ∀ x ∈ q, e.dist ≤ x.dist := by
  refine ⟨(ridgePop_mem h).1, ?_⟩
  unfold ridgePop at h
  cases hm : heapMax q with
  | none => rw [hm] at h; simp at h
  | some m =>
    rw [hm] at h
    simp at h
    obtain ⟨rfl, -⟩ := h
    exact heapMax_least hm

theorem claim_C1_witness :
    (⟨0, 2⟩ : RidgeElement) ∈ [(⟨0, 2⟩ : RidgeElement), ⟨1, 5⟩] ∧
      ∀ x ∈ [(⟨0, 2⟩ : RidgeElement), ⟨1, 5⟩], (⟨0, 2⟩ : RidgeElement).dist ≤ x.dist :=
  claim_C1_ridge_queue_min [⟨0, 2⟩, ⟨1, 5⟩] ⟨0, 2⟩ [⟨1, 5⟩] rfl

/-! ## Phase B — root classification (`find_roots_with_lakes`)

The two `while` walks of the Rust code are embedded with fuel `num`; the
descent shape of the Phase A forest (strictly decreasing elevation along
proper steps) makes `num` steps sufficient, which is the termination
argument for the loops. -/

/-- All iterates of a range-closed map stay in range. -/
theorem iterate_lt_num (num : ℕ) (next : ℕ → ℕ) (s : ℕ) (hs : s < num)
    (hcl : ∀ i, i < num → next i < num) : ∀ k, next^[k] s < num := by
  intro k
  induction k with
  | zero => simpa using hs
  | succ n ih =>
    rw [Function.iterate_succ_apply']
    exact hcl _ ih

/-- Elevation strictly decreases along any stretch of proper steps of a
descent-shaped forest. -/
theorem descent_path_strict (num : ℕ) (next : ℕ → ℕ) (elev : ℕ → ℚ) (s : ℕ)
    (hs : s < num)
    (H : ∀ i, i < num → next i < num ∧ (next i = i ∨ elev (next i) < elev i))
    (k : ℕ) (hstep : ∀ m, m < k → next^[m] s ≠ next (next^[m] s)) :
    ∀ a b, a < b → b ≤ k → elev (next^[b] s) < elev (next^[a] s) := by
  have hrange : ∀ m, next^[m] s < num :=
    iterate_lt_num num next s hs (fun i hi => (H i hi).1)
  have hone : ∀ m, m < k → elev (next^[m+1] s) < elev (next^[m] s) := by
    intro m hm
    rw [Function.iterate_succ_apply']
    rcases (H _ (hrange m)).2 with he | hlt
    · exact absurd he.symm (hstep m hm)
    · exact hlt
  intro a b hab hbk
  induction b with
  | zero => omega
  | succ n ih =>
    rcases Nat.lt_succ_iff_lt_or_eq.mp hab with h | h
    · exact lt_trans (hone n (by omega)) (ih h (by omega))
    · subst h; exact hone a (by omega)

/-- Pigeonhole: a descent-shaped forest admits no `num` consecutive proper
steps starting inside the range. -/
theorem descent_chain_bound (num : ℕ) (next : ℕ → ℕ) (elev : ℕ → ℚ) (s : ℕ)
    (hs : s < num)
    (H : ∀ i, i < num → next i < num ∧ (next i = i ∨ elev (next i) < elev i))
    (hstep : ∀ m, m < num → next^[m] s ≠ next (next^[m] s)) : False := by
  have hrange : ∀ m, next^[m] s < num :=
    iterate_lt_num num next s hs (fun i hi => (H i hi).1)
  have hmono := descent_path_strict num next elev s hs H num hstep
  have hinj : Set.InjOn (fun m => next^[m] s) (Finset.range (num + 1)) := by
    intro a ha b hb hab
    simp only [Finset.coe_range, Set.mem_Iio] at ha hb
    by_contra hne
    have hev : elev (next^[a] s) = elev (next^[b] s) := by
      simp only at hab
      rw [hab]
    rcases Nat.lt_or_ge a b with h | h
    · exact absurd hev (ne_of_gt (hmono a b h (by omega)))
    · have h' : b < a := by omega
      exact absurd hev (ne_of_lt (hmono b a h' (by omega)))
  have hmaps : ∀ a ∈ Finset.range (num + 1), (fun m => next^[m] s) a ∈ Finset.range num := by
    intro a _
    simpa using hrange a
  have hcard := Finset.card_le_card_of_injOn _ hmaps hinj
  simp at hcard

theorem walkSeek_char (next : ℕ → ℕ) (sr : ℕ → Option ℕ) :
    ∀ (fuel s : ℕ), ∃ k ≤ fuel,
      walkSeek next sr fuel s = next^[k] s ∧
      (∀ m, m < k → seekCond next sr (next^[m] s)) ∧
      (k = fuel ∨ ¬ seekCond next sr (next^[k] s)) := by
  intro fuel
  induction fuel with
  | zero =>
    intro s
    exact ⟨0, le_refl 0, rfl, by omega, Or.inl rfl⟩
  | succ n ih =>
    intro s
    by_cases hc : seekCond next sr s
    · obtain ⟨k, hk, hres, hcond, hfin⟩ := ih (next s)
      refine ⟨k + 1, by omega, ?_, ?_, ?_⟩
      · rw [walkSeek, if_pos hc, hres, Function.iterate_succ_apply]
      · intro m hm
        cases m with
        | zero => simpa using hc
        | succ m' =>
          rw [Function.iterate_succ_apply]
          exact hcond m' (by omega)
      · rcases hfin with h | h
        · left; omega
        · right; rwa [Function.iterate_succ_apply]
    · exact ⟨0, by omega, by rw [walkSeek, if_neg hc]; simp, by omega, Or.inr (by simpa using hc)⟩

/-- With fuel `num`, the first walk provably reaches a state where the loop
guard fails (termination of the Rust `while`). -/
theorem walkSeek_stops (num : ℕ) (next : ℕ → ℕ) (elev : ℕ → ℚ) (sr : ℕ → Option ℕ)
    (s : ℕ) (hs : s < num)
    (H : ∀ i, i < num → next i < num ∧ (next i = i ∨ elev (next i) < elev i)) :
    ∃ k ≤ num, walkSeek next sr num s = next^[k] s ∧
      (∀ m, m < k → seekCond next sr (next^[m] s)) ∧
      ¬ seekCond next sr (next^[k] s) := by
  obtain ⟨k, hk, hres, hcond, hfin⟩ := walkSeek_char next sr num s
  rcases hfin with hke | hstop
  · exfalso
    refine descent_chain_bound num next elev s hs H ?_
    intro m hm
    exact (hcond m (by omega)).2
  · exact ⟨k, hk, hres, hcond, hstop⟩

theorem markPath_char (next : ℕ → ℕ) (ir : Option ℕ) :
    ∀ (fuel : ℕ) (sr : ℕ → Option ℕ) (s k : ℕ), k ≤ fuel →
    (∀ m, m < k → seekCond next sr (next^[m] s)) →
    ¬ seekCond next sr (next^[k] s) →
    (∀ a b, a < b → b ≤ k → next^[a] s ≠ next^[b] s) →
    (∀ x, (∃ m ≤ k, x = next^[m] s) → markPath next ir fuel sr s x = ir) ∧
    (∀ x, (∀ m, m ≤ k → x ≠ next^[m] s) → markPath next ir fuel sr s x = sr x) := by
  intro fuel
  induction fuel with
  | zero =>
    intro sr s k hk hcond hstop hdist
    obtain rfl : k = 0 := by omega
    constructor
    · intro x ⟨m, hm, hx⟩
      obtain rfl : m = 0 := by omega
      simp only [Function.iterate_zero, id_eq] at hx
      subst hx
      rw [markPath, Function.update_same]
    · intro x hx
      rw [markPath, Function.update_noteq (by simpa using hx 0 (le_refl 0))]
  | succ n ih =>
    intro sr s k hk hcond hstop hdist
    cases k with
    | zero =>
      have hcs : ¬ seekCond next sr s := by simpa using hstop
      constructor
      · intro x ⟨m, hm, hx⟩
        obtain rfl : m = 0 := by omega
        simp only [Function.iterate_zero, id_eq] at hx
        subst hx
        rw [markPath, if_neg hcs, Function.update_same]
      · intro x hx
        rw [markPath, if_neg hcs, Function.update_noteq (by simpa using hx 0 (le_refl 0))]
    | succ k' =>
      have hcs : seekCond next sr s := by simpa using hcond 0 (by omega)
      have hne_s : ∀ m, m ≤ k' → next^[m] (next s) ≠ s := by
        intro m hm heq
        exact hdist 0 (m + 1) (by omega) (by omega)
          (by simpa [Function.iterate_succ_apply] using heq.symm)
      have ih' := ih (Function.update sr s ir) (next s) k' (by omega)
        (by
          intro m hm
          have h1 := hcond (m + 1) (by omega)
          rw [Function.iterate_succ_apply] at h1
          unfold seekCond at h1 ⊢
          rwa [Function.update_noteq (hne_s m (by omega))])
        (by
          have h1 := hstop
          rw [Function.iterate_succ_apply] at h1
          unfold seekCond at h1 ⊢
          rwa [Function.update_noteq (hne_s k' (le_refl k'))])
        (by
          intro a b hab hbk
          have := hdist (a + 1) (b + 1) (by omega) (by omega)
          simpa [Function.iterate_succ_apply] using this)
      have hmp : markPath next ir (n + 1) sr s
          = markPath next ir n (Function.update sr s ir) (next s) := by
        rw [markPath, if_pos hcs]
      constructor
      · intro x ⟨m, hm, hx⟩
        rw [hmp]
        cases m with
        | zero =>
          simp only [Function.iterate_zero, id_eq] at hx
          subst hx
          rw [ih'.2 x (by intro m hmk; exact fun h => hne_s m hmk h.symm),
            Function.update_same]
        | succ m' =>
          refine ih'.1 x ⟨m', by omega, ?_⟩
          rw [hx, Function.iterate_succ_apply]
      · intro x hx
        rw [hmp, ih'.2 x (by
          intro m hmk
          have := hx (m + 1) (by omega)
          rwa [Function.iterate_succ_apply] at this),
          Function.update_noteq (by simpa using hx 0 (by omega))]

theorem frwlStep_char (num : ℕ) (next : ℕ → ℕ) (elev : ℕ → ℚ)
    (H : ∀ i, i < num → next i < num ∧ (next i = i ∨ elev (next i) < elev i))
    (acc : (ℕ → Option ℕ) × Bool) (i₀ : ℕ) (hi₀ : i₀ < num)
    (hskip : ¬ (acc.1 i₀).isSome) :
    ∃ k, k ≤ num ∧
      (∀ m, m < k → seekCond next acc.1 (next^[m] i₀)) ∧
      ¬ seekCond next acc.1 (next^[k] i₀) ∧
      (∀ a b, a < b → b ≤ k → next^[a] i₀ ≠ next^[b] i₀) ∧
      (∀ x, (∃ m ≤ k, x = next^[m] i₀) → (frwlStep num next acc i₀).1 x
          = (if acc.1 (next^[k] i₀) = none then some (next^[k] i₀) else acc.1 (next^[k] i₀))) ∧
      (∀ x, (∀ m, m ≤ k → x ≠ next^[m] i₀) → (frwlStep num next acc i₀).1 x = acc.1 x) ∧
      ((frwlStep num next acc i₀).2 = if acc.1 (next^[k] i₀) = none then true else acc.2) := by
  obtain ⟨k, hk, hiv, hcond, hstop⟩ := walkSeek_stops num next elev acc.1 i₀ hi₀ H
  have hdist : ∀ a b, a < b → b ≤ k → next^[a] i₀ ≠ next^[b] i₀ := by
    intro a b hab hbk heq
    have := descent_path_strict num next elev i₀ hi₀ H k (fun m hm => (hcond m hm).2) a b hab hbk
    rw [heq] at this
    exact lt_irrefl _ this
  have hmc := markPath_char next
    (if acc.1 (walkSeek next acc.1 num i₀) = none
     then some (walkSeek next acc.1 num i₀)
     else acc.1 (walkSeek next acc.1 num i₀)) num acc.1 i₀ k hk hcond hstop hdist
  rw [hiv] at hmc
  have hstep1 : (frwlStep num next acc i₀).1 = markPath next
      (if acc.1 (next^[k] i₀) = none then some (next^[k] i₀) else acc.1 (next^[k] i₀))
      num acc.1 i₀ := by
    unfold frwlStep
    rw [if_neg hskip, hiv]
  have hstep2 : (frwlStep num next acc i₀).2
      = if acc.1 (next^[k] i₀) = none then true else acc.2 := by
    unfold frwlStep
    rw [if_neg hskip, hiv]
  refine ⟨k, hk, hcond, hstop, hdist, ?_, ?_, hstep2⟩
  · intro x hx
    rw [hstep1]
    exact hmc.1 x hx
  · intro x hx
    rw [hstep1]
    exact hmc.2 x hx

theorem frwlStep_some_pres (num : ℕ) (next : ℕ → ℕ) (elev : ℕ → ℚ)
    (H : ∀ i, i < num → next i < num ∧ (next i = i ∨ elev (next i) < elev i))
    (acc : (ℕ → Option ℕ) × Bool) (i₀ : ℕ) (hi₀ : i₀ < num)
    {j : ℕ} {r : ℕ} (hj : acc.1 j = some r) :
    (frwlStep num next acc i₀).1 j = some r := by
  by_cases hskip : (acc.1 i₀).isSome
  · unfold frwlStep
    rw [if_pos hskip]
    exact hj
  · obtain ⟨k, hk, hcond, hstop, hdist, hon, hoff, hhl⟩ :=
      frwlStep_char num next elev H acc i₀ hi₀ hskip
    by_cases hpath : ∃ m ≤ k, j = next^[m] i₀
    · obtain ⟨m, hm, rfl⟩ := hpath
      rcases Nat.lt_or_ge m k with hmk | hmk
      · exact absurd hj (by rw [(hcond m hmk).1]; simp)
      · obtain rfl : m = k := by omega
        rw [hon _ ⟨m, le_refl m, rfl⟩, if_neg (by rw [hj]; simp)]
        exact hj
    · push_neg at hpath
      rw [hoff j hpath]
      exact hj

theorem frwlStep_writes (num : ℕ) (next : ℕ → ℕ) (elev : ℕ → ℚ)
    (H : ∀ i, i < num → next i < num ∧ (next i = i ∨ elev (next i) < elev i))
    (acc : (ℕ → Option ℕ) × Bool) (i₀ : ℕ) (hi₀ : i₀ < num) :
    ((frwlStep num next acc i₀).1 i₀).isSome := by
  by_cases hskip : (acc.1 i₀).isSome
  · unfold frwlStep
    rw [if_pos hskip]
    exact hskip
  · obtain ⟨k, hk, hcond, hstop, hdist, hon, hoff, hhl⟩ :=
      frwlStep_char num next elev H acc i₀ hi₀ hskip
    rw [hon i₀ ⟨0, by omega, by simp⟩]
    by_cases hn : acc.1 (next^[k] i₀) = none
    · rw [if_pos hn]; simp
    · rw [if_neg hn]
      exact Option.isSome_iff_ne_none.mpr hn

theorem frwlStep_inv (num : ℕ) (is_outlet : ℕ → Bool) (next : ℕ → ℕ) (elev : ℕ → ℚ)
    (H : ∀ i, i < num → next i < num ∧ (next i = i ∨ elev (next i) < elev i))
    (acc : (ℕ → Option ℕ) × Bool)
    (hacc : SRInv num is_outlet next acc.1 acc.2)
    (i₀ : ℕ) (hi₀ : i₀ < num) :
    SRInv num is_outlet next (frwlStep num next acc i₀).1 (frwlStep num next acc i₀).2 := by
  by_cases hskip : (acc.1 i₀).isSome
  · unfold frwlStep
    rw [if_pos hskip]
    exact hacc
  · obtain ⟨k, hk, hcond, hstop, hdist, hon, hoff, hhl⟩ :=
      frwlStep_char num next elev H acc i₀ hi₀ hskip
    have hrange : ∀ m, next^[m] i₀ < num :=
      iterate_lt_num num next i₀ hi₀ (fun i hi => (H i hi).1)
    have hpres : ∀ {j r}, acc.1 j = some r → (frwlStep num next acc i₀).1 j = some r :=
      fun {j r} hj => frwlStep_some_pres num next elev H acc i₀ hi₀ hj
    rcases hiv : acc.1 (next^[k] i₀) with _ | r₀
    -- lake case: terminal unlabelled, necessarily a self-loop
    · have hself : next (next^[k] i₀) = next^[k] i₀ := by
        by_contra hne
        exact hstop ⟨hiv, fun h => hne h.symm⟩
      have hir : ∀ x, (∃ m ≤ k, x = next^[m] i₀) →
          (frwlStep num next acc i₀).1 x = some (next^[k] i₀) := by
        intro x hx
        rw [hon x hx, if_pos hiv]
      refine ⟨?_, ?_, ?_⟩
      · intro o ho hout
        exact hpres (hacc.outlet_self o ho hout)
      · intro x hx hloop
        by_cases hpath : ∃ m ≤ k, x = next^[m] i₀
        · obtain ⟨m, hm, rfl⟩ := hpath
          rcases Nat.lt_or_ge m k with hmk | hmk
          · exact absurd ((hcond m hmk).2)
              (by intro hne; exact hne (by rw [← Function.iterate_succ_apply' next m i₀,
                Function.iterate_succ_apply', hloop]))
          · obtain rfl : m = k := by omega
            right
            exact hir _ ⟨m, le_refl m, rfl⟩
        · push_neg at hpath
          rw [hoff x hpath]
          exact hacc.selfloop_own x hx hloop
      · intro i r hi hri
        by_cases hpath : ∃ m ≤ k, i = next^[m] i₀
        · obtain ⟨m, hm, rfl⟩ := hpath
          have hval := hir _ ⟨m, hm, rfl⟩
          rw [hval] at hri
          obtain rfl : next^[k] i₀ = r := by injection hri
          refine ⟨?_, hrange k, hir _ ⟨k, le_refl k, rfl⟩, Or.inr hself, ⟨k - m, ?_⟩, ?_⟩
          · rcases Nat.lt_or_ge m k with hmk | hmk
            · refine hir _ ⟨m + 1, by omega, ?_⟩
              rw [Function.iterate_succ_apply']
            · obtain rfl : m = k := by omega
              rw [hself]
              exact hir _ ⟨m, le_refl m, rfl⟩
          · rw [← Function.iterate_add_apply]
            congr 1
            omega
          · intro hfalse
            rw [hhl, if_pos hiv] at hfalse
            exact absurd hfalse (by simp)
        · push_neg at hpath
          have hval : acc.1 i = some r := by rw [← hoff i hpath]; exact hri
          obtain ⟨hnext, hrlt, hrr, hout, ⟨n', hn'⟩, -⟩ := hacc.coherent i r hi hval
          refine ⟨hpres hnext, hrlt, hpres hrr, hout, ⟨n', hn'⟩, ?_⟩
          · intro hfalse
            rw [hhl, if_pos hiv] at hfalse
            exact absurd hfalse (by simp)
    -- labelled-terminal case: propagate the existing label r₀
    · have hir : ∀ x, (∃ m ≤ k, x = next^[m] i₀) →
          (frwlStep num next acc i₀).1 x = some r₀ := by
        intro x hx
        rw [hon x hx, if_neg (by rw [hiv]; simp), hiv]
      have hhl' : (frwlStep num next acc i₀).2 = acc.2 := by
        rw [hhl, if_neg (by rw [hiv]; simp)]
      obtain ⟨hnext₀, hr₀lt, hr₀r₀, hout₀, ⟨n₀, hn₀⟩, hhl₀⟩ :=
        hacc.coherent (next^[k] i₀) r₀ (hrange k) hiv
      refine ⟨?_, ?_, ?_⟩
      · intro o ho hout
        exact hpres (hacc.outlet_self o ho hout)
      · intro x hx hloop
        by_cases hpath : ∃ m ≤ k, x = next^[m] i₀
        · obtain ⟨m, hm, rfl⟩ := hpath
          rcases Nat.lt_or_ge m k with hmk | hmk
          · exact absurd ((hcond m hmk).2)
              (by intro hne; exact hne (by rw [← Function.iterate_succ_apply' next m i₀,
                Function.iterate_succ_apply', hloop]))
          · obtain rfl : m = k := by omega
            rcases hacc.selfloop_own _ (hrange m) hloop with hn | hs
            · rw [hn] at hiv; exact absurd hiv (by simp)
            · rw [hs] at hiv
              obtain rfl : r₀ = next^[m] i₀ := by injection hiv; omega
              right
              exact hir _ ⟨m, le_refl m, rfl⟩
        · push_neg at hpath
          rw [hoff x hpath]
          exact hacc.selfloop_own x hx hloop
      · intro i r hi hri
        by_cases hpath : ∃ m ≤ k, i = next^[m] i₀
        · obtain ⟨m, hm, rfl⟩ := hpath
          have hval := hir _ ⟨m, hm, rfl⟩
          rw [hval] at hri
          obtain rfl : r₀ = r := by injection hri
          refine ⟨?_, hr₀lt, hpres hr₀r₀, hout₀, ⟨n₀ + (k - m), ?_⟩, ?_⟩
          · rcases Nat.lt_or_ge m k with hmk | hmk
            · refine hir _ ⟨m + 1, by omega, ?_⟩
              rw [Function.iterate_succ_apply']
            · obtain rfl : m = k := by omega
              exact hpres hnext₀
          · have hkm : k - m + m = k := by omega
            rw [Function.iterate_add_apply, ← Function.iterate_add_apply next (k - m) m i₀, hkm]
            exact hn₀
          · intro hfalse
            rw [hhl'] at hfalse
            exact hhl₀ hfalse
        · push_neg at hpath
          have hval : acc.1 i = some r := by rw [← hoff i hpath]; exact hri
          obtain ⟨hnext, hrlt, hrr, hout, ⟨n', hn'⟩, hl0⟩ := hacc.coherent i r hi hval
          refine ⟨hpres hnext, hrlt, hpres hrr, hout, ⟨n', hn'⟩, ?_⟩
          · intro hfalse
            rw [hhl'] at hfalse
            exact hl0 hfalse

theorem frwl_fold_inv (num : ℕ) (is_outlet : ℕ → Bool) (next : ℕ → ℕ) (elev : ℕ → ℚ)
    (H : ∀ i, i < num → next i < num ∧ (next i = i ∨ elev (next i) < elev i)) :
    ∀ (L : List ℕ) (acc : (ℕ → Option ℕ) × Bool), (∀ i ∈ L, i < num) →
      SRInv num is_outlet next acc.1 acc.2 →
      SRInv num is_outlet next (L.foldl (frwlStep num next) acc).1
        (L.foldl (frwlStep num next) acc).2 := by
  intro L
  induction L with
  | nil => intro acc _ hacc; exact hacc
  | cons i rest ih =>
    intro acc hmem hacc
    rw [List.foldl_cons]
    exact ih _ (fun j hj => hmem j (List.mem_cons_of_mem _ hj))
      (frwlStep_inv num is_outlet next elev H acc hacc i (hmem i (List.mem_cons_self _ _)))

theorem frwl_fold_some_pres (num : ℕ) (next : ℕ → ℕ) (elev : ℕ → ℚ)
    (H : ∀ i, i < num → next i < num ∧ (next i = i ∨ elev (next i) < elev i)) :
    ∀ (L : List ℕ) (acc : (ℕ → Option ℕ) × Bool), (∀ i ∈ L, i < num) →
      ∀ {j r : ℕ}, acc.1 j = some r →
      (L.foldl (frwlStep num next) acc).1 j = some r := by
  intro L
  induction L with
  | nil => intro acc _ j r hj; exact hj
  | cons i rest ih =>
    intro acc hmem j r hj
    rw [List.foldl_cons]
    exact ih _ (fun x hx => hmem x (List.mem_cons_of_mem _ hx))
      (frwlStep_some_pres num next elev H acc i (hmem i (List.mem_cons_self _ _)) hj)

theorem frwl_fold_some (num : ℕ) (next : ℕ → ℕ) (elev : ℕ → ℚ)
    (H : ∀ i, i < num → next i < num ∧ (next i = i ∨ elev (next i) < elev i)) :
    ∀ (L : List ℕ) (acc : (ℕ → Option ℕ) × Bool), (∀ i ∈ L, i < num) →
      ∀ j ∈ L, ((L.foldl (frwlStep num next) acc).1 j).isSome := by
  intro L
  induction L with
  | nil => intro acc _ j hj; simp at hj
  | cons i rest ih =>
    intro acc hmem j hj
    rw [List.foldl_cons]
    rcases List.mem_cons.mp hj with rfl | hj'
    · have hw := frwlStep_writes num next elev H acc j (hmem j (List.mem_cons_self _ _))
      obtain ⟨r, hr⟩ := Option.isSome_iff_exists.mp hw
      rw [frwl_fold_some_pres num next elev H rest _
        (fun x hx => hmem x (List.mem_cons_of_mem _ hx)) hr]
      simp
    · exact ih _ (fun x hx => hmem x (List.mem_cons_of_mem _ hx)) j hj'

/-- Full characterization of Phase B output for a descent-shaped forest with
outlet self-loops: every site is labelled, and the labelling is coherent. -/
theorem find_roots_spec (num : ℕ) (is_outlet : ℕ → Bool) (next : ℕ → ℕ) (elev : ℕ → ℚ)
    (H : ∀ i, i < num → next i < num ∧ (next i = i ∨ elev (next i) < elev i))
    (houtlet : ∀ o, o < num → is_outlet o = true → next o = o) :
    (∀ i, i < num → ((find_roots_with_lakes num is_outlet next).1 i).isSome) ∧
    SRInv num is_outlet next (find_roots_with_lakes num is_outlet next).1
      (find_roots_with_lakes num is_outlet next).2 := by
  have hinit : SRInv num is_outlet next
      (fun i => if is_outlet i then some i else none) false := by
    refine ⟨?_, ?_, ?_⟩
    · intro o _ hout
      simp only [hout, if_pos]
    · intro x _ _
      by_cases hx : is_outlet x
      · right; simp [hx]
      · left; simp [hx]
    · intro i r hi hri
      by_cases hx : is_outlet i
      · simp only [hx, if_pos] at hri
        obtain rfl : i = r := by injection hri
        rw [houtlet i hi hx]
        refine ⟨by simp [hx], hi, by simp [hx], Or.inl hx, ⟨0, by simp⟩, fun _ => hx⟩
      · simp [hx] at hri
  have hmem : ∀ i ∈ List.range num, i < num := fun i hi => List.mem_range.mp hi
  unfold find_roots_with_lakes
  exact ⟨fun i hi => frwl_fold_some num next elev H (List.range num) _ hmem i
      (List.mem_range.mpr hi),
    frwl_fold_inv num is_outlet next elev H (List.range num) _ hmem hinit⟩

/-- **C8.** For the `next` vector produced by Phase A (each site self-loops
or points to a strictly lower neighbor), Phase B terminates — the walk
guards provably fail within `num` steps, which is the fuel the embedding
gives the `while` loops — and every site receives a subroot that is an
outlet or a lake-bottom self-loop, so the final `unwrap` never panics. -/
theorem claim_C8_phaseB_total (num : ℕ) (elev : ℕ → ℚ) (nbrs : ℕ → List (ℕ × ℚ))
    (is_outlet : ℕ → Bool)
    (hnb : ∀ i, i < num → ∀ p ∈ nbrs i, p.1 < num) :
    (∀ i, i < num → ∃ k, k < num ∧
      construct_initial_stream_tree num elev nbrs is_outlet
        ((construct_initial_stream_tree num elev nbrs is_outlet)^[k] i)
        = (construct_initial_stream_tree num elev nbrs is_outlet)^[k] i) ∧
    (∀ i, i < num → ∃ r,
      (find_roots_with_lakes num is_outlet
        (construct_initial_stream_tree num elev nbrs is_outlet)).1 i = some r ∧
      (is_outlet r = true ∨
        construct_initial_stream_tree num elev nbrs is_outlet r = r)) := by
  set next : ℕ → ℕ := construct_initial_stream_tree num elev nbrs is_outlet with hnext
  have H : ∀ i, i < num → next i < num ∧ (next i = i ∨ elev (next i) < elev i) := by
    intro i hi
    rcases initial_tree_shape num elev nbrs is_outlet i with hsl | ⟨hlt, p, hp, hpe⟩
    · rw [← hnext] at hsl
      rw [hsl]
      exact ⟨hi, Or.inl rfl⟩
    · rw [← hnext] at hlt hpe
      refine ⟨by rw [hpe]; exact hnb i hi p hp, Or.inr hlt⟩
  have houtlet : ∀ o, o < num → is_outlet o = true → next o = o := by
    intro o _ ho
    rw [hnext]
    exact initial_tree_outlet num elev nbrs is_outlet o ho
  obtain ⟨hall, hinv⟩ := find_roots_spec num is_outlet next elev H houtlet
  constructor
  · intro i hi
    by_contra hno
    push_neg at hno
    exact descent_chain_bound num next elev i hi H
      (fun m hm => fun he => hno m hm (by rw [← he]))
  · intro i hi
    obtain ⟨r, hr⟩ := Option.isSome_iff_exists.mp (hall i hi)
    obtain ⟨-, -, -, hout, -, -⟩ := hinv.coherent i r hi hr
    exact ⟨r, hr, hout⟩

theorem claim_C8_witness :
    (∀ i, i < 3 → ∃ k, k < 3 ∧
      construct_initial_stream_tree 3 elevW nbrsW outW
        ((construct_initial_stream_tree 3 elevW nbrsW outW)^[k] i)
        = (construct_initial_stream_tree 3 elevW nbrsW outW)^[k] i) ∧
    (∀ i, i < 3 → ∃ r,
      (find_roots_with_lakes 3 outW
        (construct_initial_stream_tree 3 elevW nbrsW outW)).1 i = some r ∧
      (outW r = true ∨ construct_initial_stream_tree 3 elevW nbrsW outW r = r)) :=
  claim_C8_phaseB_total 3 elevW nbrsW outW (by decide)

/-- **C9.** `generate` returns a configuration error exactly when the model
is absent, the attributes are absent, or the attribute count differs from
the model's site count; the error is decided before the main loop, embedded
here as independence from the loop fuel (the same error already at fuel 0). -/
theorem claim_C9_validation (tg : TerrainGenerator) (fops : FloatOps) (fuel : ℕ) :
    ((∃ e, tg.generate fops fuel = Except.error e) ↔
      (tg.model = none ∨ tg.attributes = none ∨
        ∃ m a, tg.model = some m ∧ tg.attributes = some a ∧ a.length ≠ m.num)) ∧
    (∀ e, tg.generate fops fuel = Except.error e →
      tg.generate fops 0 = Except.error e) := by
  unfold TerrainGenerator.generate
  rcases hm : tg.model with _ | m
  · simp only [hm]
    exact ⟨⟨fun _ => Or.inl trivial, fun _ => ⟨GenError.missingModel, rfl⟩⟩,
      fun e he => he⟩
  · simp only [hm]
    rcases ha : tg.attributes with _ | a
    · simp only [ha]
      exact ⟨⟨fun _ => Or.inr (Or.inl trivial), fun _ => ⟨GenError.missingAttributes, rfl⟩⟩,
        fun e he => he⟩
    · simp only [ha]
      by_cases hlen : a.length = m.num
      · rw [if_neg (by simpa using hlen), if_neg (by simpa using hlen)]
        constructor
        · constructor
          · intro ⟨e, he⟩
            exact Except.noConfusion he
          · intro h
            rcases h with h | h | ⟨m', a', hm', ha', hlen'⟩
            · exact Option.noConfusion h
            · exact Option.noConfusion h
            · obtain rfl : m = m' := by injection hm'
              obtain rfl : a = a' := by injection ha'
              exact absurd hlen hlen'
        · intro e he
          exact Except.noConfusion he
      · rw [if_pos hlen, if_pos hlen]
        exact ⟨⟨fun _ => Or.inr (Or.inr ⟨m, a, rfl, rfl, hlen⟩),
          fun _ => ⟨GenError.attributeCountMismatch, rfl⟩⟩, fun e he => he⟩

theorem claim_C9_witness :
    (∃ e, TerrainGenerator.generate ⟨none, none, none, none⟩ fops0 3 = Except.error e) ∧
    ¬ (∃ e, tgW1.generate fops0 3 = Except.error e) := by
  constructor
  · exact (claim_C9_validation ⟨none, none, none, none⟩ fops0 3).1.mpr (Or.inl rfl)
  · intro he
    have h := (claim_C9_validation tgW1 fops0 3).1.mp he
    rcases h with h | h | ⟨m', a', hm', ha', hlen'⟩
    · exact Option.noConfusion h
    · exact Option.noConfusion h
    · obtain rfl : modelW1 = m' := by injection hm'
      obtain rfl : [(⟨0, 1, 7, none⟩ : TerrainAttributes)] = a' := by injection ha'
      exact hlen' rfl

theorem mainLoopGo_passes_le (model : Model) (fops : FloatOps) (m_exp : ℚ)
    (attrs : ℕ → TerrainAttributes) (K : ℕ) :
    ∀ (fuel : ℕ) (alt : ℕ → ℚ) (step : ℕ),
      (mainLoopGo model fops m_exp attrs (some K) fuel alt step).2 ≤ max (K - step) 1 := by
  intro fuel
  induction fuel with
  | zero =>
    intro alt step
    simp [mainLoopGo]
  | succ n ih =>
    intro alt step
    simp only [mainLoopGo]
    by_cases hch : (onePass model fops m_exp attrs alt).2 = false
    · rw [if_pos hch]
      exact le_max_right _ _
    · rw [if_neg hch]
      by_cases hk : K ≤ step + 1
      · rw [if_pos hk]
        exact le_max_right _ _
      · rw [if_neg hk]
        have h := ih (onePass model fops m_exp attrs alt).1 (step + 1)
        simp only []
        have hmx : max (K - (step + 1)) 1 = K - (step + 1) := by omega
        rw [hmx] at h
        omega

theorem mainLoopGo_passes_pos (model : Model) (fops : FloatOps) (m_exp : ℚ)
    (attrs : ℕ → TerrainAttributes) (mi : Option ℕ) (fuel : ℕ) (alt : ℕ → ℚ)
    (step : ℕ) (hf : 1 ≤ fuel) :
    1 ≤ (mainLoopGo model fops m_exp attrs mi fuel alt step).2 := by
  cases fuel with
  | zero => omega
  | succ n =>
    cases mi with
    | none =>
      simp only [mainLoopGo]
      by_cases hch : (onePass model fops m_exp attrs alt).2 = false
      · rw [if_pos hch]
      · rw [if_neg hch]
        dsimp only
        omega
    | some k =>
      simp only [mainLoopGo]
      by_cases hch : (onePass model fops m_exp attrs alt).2 = false
      · rw [if_pos hch]
      · rw [if_neg hch]
        by_cases hk : k ≤ step + 1
        · rw [if_pos hk]
        · rw [if_neg hk]
          dsimp only
          omega

theorem mainLoopGo_stable (model : Model) (fops : FloatOps) (m_exp : ℚ)
    (attrs : ℕ → TerrainAttributes) (K : ℕ) :
    ∀ (f g : ℕ) (alt : ℕ → ℚ) (step : ℕ), 1 ≤ f → 1 ≤ g →
      K ≤ step + f → K ≤ step + g →
      mainLoopGo model fops m_exp attrs (some K) f alt step
        = mainLoopGo model fops m_exp attrs (some K) g alt step := by
  intro f
  induction f with
  | zero => intro g alt step h1; omega
  | succ n ih =>
    intro g alt step _ hg hKf hKg
    cases g with
    | zero => omega
    | succ m =>
      simp only [mainLoopGo]
      by_cases hch : (onePass model fops m_exp attrs alt).2 = false
      · rw [if_pos hch, if_pos hch]
      · rw [if_neg hch, if_neg hch]
        by_cases hk : K ≤ step + 1
        · rw [if_pos hk, if_pos hk]
        · rw [if_neg hk, if_neg hk]
          have heq := ih m (onePass model fops m_exp attrs alt).1 (step + 1)
            (by omega) (by omega) (by omega) (by omega)
          rw [heq]

/-- **C10.** With `max_iteration = K`, the main loop executes at most
`max(K, 1)` passes; with any fuel at all it executes at least one full pass
(so `K = 0` still runs one complete pass, because the cap is tested only
after the pass and the increment); and any fuel of at least `max(K, 1)`
yields the same result, which is the embedded form of termination. -/
theorem claim_C10_iteration_cap (model : Model) (fops : FloatOps) (m_exp : ℚ)
    (attrs : ℕ → TerrainAttributes) (K : ℕ) (fuel : ℕ) (alt : ℕ → ℚ) :
    (mainLoopGo model fops m_exp attrs (some K) fuel alt 0).2 ≤ max K 1 ∧
    (1 ≤ fuel → 1 ≤ (mainLoopGo model fops m_exp attrs (some K) fuel alt 0).2) ∧
    (max K 1 ≤ fuel →
      mainLoopGo model fops m_exp attrs (some K) fuel alt 0
        = mainLoopGo model fops m_exp attrs (some K) (max K 1) alt 0) := by
  refine ⟨?_, ?_, ?_⟩
  · have h := mainLoopGo_passes_le model fops m_exp attrs K fuel alt 0
    simpa using h
  · intro hf
    exact mainLoopGo_passes_pos model fops m_exp attrs (some K) fuel alt 0 hf
  · intro hf
    exact mainLoopGo_stable model fops m_exp attrs K fuel (max K 1) alt 0
      (by omega) (by omega) (by omega) (by omega)

theorem claim_C10_witness :
    (mainLoopGo modelW1 fops0 (1/2) (fun _ => default) (some 0) 1
        (fun _ => 7) 0).2 ≤ max 0 1 ∧
    1 ≤ (mainLoopGo modelW1 fops0 (1/2) (fun _ => default) (some 0) 1
        (fun _ => 7) 0).2 := by
  obtain ⟨h1, h2, -⟩ := claim_C10_iteration_cap modelW1 fops0 (1/2)
    (fun _ => default) 0 1 (fun _ => 7)
  exact ⟨h1, h2 (by omega)⟩

theorem onePass_empty_outlets (model : Model) (fops : FloatOps) (m_exp : ℚ)
    (attrs : ℕ → TerrainAttributes) (alt : ℕ → ℚ) (hout : model.outlets = []) :
    onePass model fops m_exp attrs alt = (alt, false) := by
  unfold onePass
  rw [hout]
  rfl

theorem mainLoopGo_id_of_unchanged (model : Model) (fops : FloatOps) (m_exp : ℚ)
    (attrs : ℕ → TerrainAttributes)
    (h : ∀ alt, onePass model fops m_exp attrs alt = (alt, false)) :
    ∀ (mi : Option ℕ) (fuel : ℕ) (alt : ℕ → ℚ) (step : ℕ),
      (mainLoopGo model fops m_exp attrs mi fuel alt step).1 = alt := by
  intro mi fuel alt step
  cases fuel with
  | zero => cases mi <;> rfl
  | succ n =>
    cases mi with
    | none => simp [mainLoopGo, h alt]
    | some k => simp [mainLoopGo, h alt]

/-- **C3 (counterexample).** `modelW1` has one site and an empty outlet
list, so its site is unreachable from any outlet; yet `generate` returns
`Ok` with the site's elevation unchanged at its base altitude 7 — no error
is raised, at any fuel. -/
theorem claim_C3_counterexample :
    modelW1.outlets = [] ∧ modelW1.num = 1 ∧
    tgW1.generate fops0 9 = Except.ok [7] := by
  refine ⟨rfl, rfl, ?_⟩
  rfl

/-- **C3 (amended).** `generate` does not detect sites unreachable from the
outlets: with a well-formed configuration whose outlet list is empty (every
site unreachable), it synchronously returns `Ok` with every site's elevation
equal to its base altitude, rather than an error. -/
theorem claim_C3_no_error_on_unreachable (tg : TerrainGenerator) (fops : FloatOps)
    (fuel : ℕ) (m : Model) (a : List TerrainAttributes)
    (hm : tg.model = some m) (ha : tg.attributes = some a)
    (hlen : a.length = m.num) (hout : m.outlets = []) :
    tg.generate fops fuel = Except.ok ((List.range m.num).map
      (fun i => ((a.get? i).getD default).base_altitude)) := by
  unfold TerrainGenerator.generate
  simp only [hm, ha]
  rw [if_neg (by simpa using hlen)]
  rw [mainLoopGo_id_of_unchanged m fops (tg.m_exp.getD (1/2))
    (fun i => (a.get? i).getD default)
    (fun alt => onePass_empty_outlets m fops (tg.m_exp.getD (1/2))
      (fun i => (a.get? i).getD default) alt hout)]

theorem claim_C3_witness :
    tgW1.generate fops0 2 = Except.ok ((List.range modelW1.num).map
      (fun i => (([(⟨0, 1, 7, none⟩ : TerrainAttributes)].get? i).getD
        default).base_altitude)) :=
  claim_C3_no_error_on_unreachable tgW1 fops0 2 modelW1 [⟨0, 1, 7, none⟩]
    rfl rfl rfl rfl

theorem sum_map_update (f : ℕ → ℚ) (x : ℕ) (v : ℚ) :
    ∀ (l : List ℕ), l.Nodup → x ∈ l →
      (l.map (Function.update f x v)).sum = (l.map f).sum + (v - f x) := by
  intro l
  induction l with
  | nil => intro _ hx; simp at hx
  | cons a t ih =>
    intro hnd hx
    rcases List.mem_cons.mp hx with rfl | hxt
    · have hxt : x ∉ t := (List.nodup_cons.mp hnd).1
      have ht : t.map (Function.update f x v) = t.map f := by
        apply List.map_congr_left
        intro y hy
        exact Function.update_noteq (show y ≠ x by rintro rfl; exact hxt hy) v f
      simp only [List.map_cons, List.sum_cons, ht, Function.update_same]
      ring
    · have hax : a ≠ x := by
        rintro rfl
        exact (List.nodup_cons.mp hnd).1 hxt
      simp only [List.map_cons, List.sum_cons,
        Function.update_noteq hax v f,
        ih (List.nodup_cons.mp hnd).2 hxt]
      ring

theorem sum_map_split_out (f : ℕ → ℚ) (o : ℕ) :
    ∀ (l : List ℕ), l.Nodup → o ∈ l →
      (l.map f).sum = f o + ((l.filter (fun i => i != o)).map f).sum := by
  intro l
  induction l with
  | nil => intro _ hx; simp at hx
  | cons a t ih =>
    intro hnd hx
    rcases List.mem_cons.mp hx with rfl | hxt
    · have hot : o ∉ t := (List.nodup_cons.mp hnd).1
      have hstep : (o :: t).filter (fun i => i != o) = t.filter (fun i => i != o) :=
        List.filter_cons_of_neg (by simp)
      have ht : t.filter (fun i => i != o) = t := by
        apply List.filter_eq_self.mpr
        intro y hy
        simp only [bne_iff_ne, ne_eq, decide_eq_true_eq]
        rintro rfl
        exact hot hy
      rw [hstep, ht]
      simp
    · have hao : a ≠ o := by
        rintro rfl
        exact (List.nodup_cons.mp hnd).1 hxt
      have hstep : (a :: t).filter (fun i => i != o) = a :: t.filter (fun i => i != o) :=
        List.filter_cons_of_pos (by simpa using hao)
      rw [hstep]
      simp only [List.map_cons, List.sum_cons, ih (List.nodup_cons.mp hnd).2 hxt]
      ring

theorem drainagePass_untouched (nextf : ℕ → ℕ) :
    ∀ (order : List ℕ) (da : ℕ → ℚ) (x : ℕ), (∀ i ∈ order, nextf i ≠ x) →
      drainagePass nextf order da x = da x := by
  intro order
  induction order with
  | nil => intro da x _; rfl
  | cons i rest ih =>
    intro da x hx
    unfold drainagePass
    rw [List.foldl_cons]
    by_cases hni : nextf i ≠ i
    · rw [if_pos hni]
      have := ih (Function.update da (nextf i) (da (nextf i) + da i)) x
        (fun j hj => hx j (List.mem_cons_of_mem _ hj))
      unfold drainagePass at this
      rw [this, Function.update_noteq]
      exact fun h => hx i (List.mem_cons_self _ _) h.symm
    · rw [if_neg hni]
      exact ih da x (fun j hj => hx j (List.mem_cons_of_mem _ hj))

theorem drainagePass_sum (nextf : ℕ → ℕ) (o : ℕ) (ho : nextf o = o) :
    ∀ (order : List ℕ) (da : ℕ → ℚ), order.Nodup → downOK nextf o order →
      drainagePass nextf order da o
        = da o + ((order.filter (fun i => i != o)).map da).sum := by
  intro order
  induction order with
  | nil => intro da _ _; simp [drainagePass]
  | cons i rest ih =>
    intro da hnd hdo
    obtain ⟨hhead, hrest⟩ := hdo
    unfold drainagePass
    rw [List.foldl_cons]
    rcases hhead with rfl | ⟨hni, hmem⟩
    · rw [if_neg (by rw [ho]; exact fun h => h rfl)]
      have hih := ih da (List.nodup_cons.mp hnd).2 hrest
      unfold drainagePass at hih
      rw [hih]
      have hstep : (i :: rest).filter (fun x => x != i) = rest.filter (fun x => x != i) :=
        List.filter_cons_of_neg (by simp)
      rw [hstep]
    · have hio : i ≠ o := fun h => hni (by rw [h]; exact ho)
      rw [if_pos hni]
      have hih := ih (Function.update da (nextf i) (da (nextf i) + da i))
        (List.nodup_cons.mp hnd).2 hrest
      unfold drainagePass at hih
      rw [hih]
      have hstep : (i :: rest).filter (fun x => x != o) = i :: rest.filter (fun x => x != o) :=
        List.filter_cons_of_pos (by simpa using hio)
      rw [hstep]
      simp only [List.map_cons, List.sum_cons]
      by_cases hno : nextf i = o
      · have h1 : Function.update da (nextf i) (da (nextf i) + da i) o = da o + da i := by
          rw [hno, Function.update_same]
        have h2 : (rest.filter (fun x => x != o)).map
              (Function.update da (nextf i) (da (nextf i) + da i))
            = (rest.filter (fun x => x != o)).map da := by
          apply List.map_congr_left
          intro y hy
          have hyo : y ≠ o := by simpa using List.of_mem_filter hy
          apply Function.update_noteq
          rw [hno]
          exact hyo
        rw [h1, h2]
        ring
      · have h1 : Function.update da (nextf i) (da (nextf i) + da i) o = da o :=
          Function.update_noteq (fun h => hno h.symm) _ _
        have hmemf : nextf i ∈ rest.filter (fun x => x != o) :=
          List.mem_filter.mpr ⟨hmem, by simpa using hno⟩
        have hndf : (rest.filter (fun x => x != o)).Nodup :=
          List.Nodup.filter _ (List.nodup_cons.mp hnd).2
        have hsum := sum_map_update da (nextf i) (da (nextf i) + da i)
          (rest.filter (fun x => x != o)) hndf hmemf
        rw [h1, hsum]
        ring

/-- **C4.** After the downstream accumulation pass over the basin of outlet
`o` (starting from `drainage_area[i] = areas[i]`), the drainage area stored
at `o` equals the sum of `areas[i]` over all sites of `o`'s basin.  The
enumeration is any valid downstream order of exactly the basin —
`drainage_basin.rs` is not among the verified sources, so its ordering
contract is taken from spec §4.2 (downOK: every non-outlet site strictly
before its downstream target, Nodup, enumerating the basin). -/
theorem claim_C4_drainage_area_sum (nextf : ℕ → ℕ) (num o : ℕ) (order : List ℕ)
    (areas : ℕ → ℚ)
    (ho : nextf o = o) (hnd : order.Nodup) (hdown : downOK nextf o order)
    (hoin : o ∈ order)
    (_hbasin₁ : ∀ i ∈ order, i < num ∧ InBasin nextf num o i)
    (_hbasin₂ : ∀ i, i < num → InBasin nextf num o i → i ∈ order) :
    drainagePass nextf order areas o = (order.map areas).sum := by
  rw [drainagePass_sum nextf o ho order areas hnd hdown,
    sum_map_split_out areas o order hnd hoin]

theorem claim_C4_witness :
    drainagePass (fun _ => 0) [1, 0] (fun _ => 1) 0
      = (([1, 0].map (fun _ => (1:ℚ))).sum) := by
  exact claim_C4_drainage_area_sum (fun _ => 0) 2 0 [1, 0] (fun _ => 1)
    rfl (by decide) (by refine ⟨Or.inr ⟨by decide, by decide⟩, Or.inl rfl, trivial⟩) (by simp)
    (by decide) (by decide)

/-- A basin member other than the outlet cannot be a self-loop. -/
theorem basin_no_selfloop (nextf : ℕ → ℕ) (num o i : ℕ) (hne : i ≠ o)
    (hb : InBasin nextf num o i) : nextf i ≠ i := by
  obtain ⟨n, -, hn⟩ := hb
  intro hself
  have hall : ∀ m, nextf^[m] i = i := by
    intro m
    induction m with
    | zero => rfl
    | succ k ih => rw [Function.iterate_succ_apply', ih, hself]
  rw [hall n] at hn
  exact hne hn

theorem responsePass_untouched (fops : FloatOps) (attrs : ℕ → TerrainAttributes)
    (has_edge : ℕ → ℕ → Bool × ℚ) (nextf : ℕ → ℕ) (m_exp : ℚ) (da : ℕ → ℚ) :
    ∀ (order : List ℕ) (rt : ℕ → ℚ) (x : ℕ), x ∉ order →
      responsePass fops attrs has_edge nextf m_exp da order rt x = rt x := by
  intro order
  induction order with
  | nil => intro rt x _; rfl
  | cons i rest ih =>
    intro rt x hx
    unfold responsePass
    rw [List.foldl_cons]
    have hxr : x ∉ rest := fun h => hx (List.mem_cons_of_mem _ h)
    have hxi : x ≠ i := fun h => hx (h ▸ List.mem_cons_self _ _)
    have := ih (Function.update rt i (rt i +
      (rt (nextf i) +
        1 / ((attrs i).erodibility * fops.powf (da i) m_exp) *
          (if (has_edge i (nextf i)).1 then (has_edge i (nextf i)).2 else 0)))) x hxr
    unfold responsePass at this
    rw [this, Function.update_noteq hxi]

theorem responsePass_char (fops : FloatOps) (attrs : ℕ → TerrainAttributes)
    (has_edge : ℕ → ℕ → Bool × ℚ) (nextf : ℕ → ℕ) (m_exp : ℚ) (da : ℕ → ℚ) :
    ∀ (order seen : List ℕ) (rt : ℕ → ℚ),
      (order ++ seen).Nodup →
      upOK nextf seen order →
      (∀ i ∈ order, rt i = 0) →
      ∀ i ∈ order,
        responsePass fops attrs has_edge nextf m_exp da order rt i
          = (if nextf i = i then 0
             else responsePass fops attrs has_edge nextf m_exp da order rt (nextf i))
            + 1 / ((attrs i).erodibility * fops.powf (da i) m_exp) *
              (if (has_edge i (nextf i)).1 then (has_edge i (nextf i)).2 else 0) := by
  intro order
  induction order with
  | nil => intro seen rt _ _ _ i hi; simp at hi
  | cons j rest ih =>
    intro seen rt hnd hup hz i hi
    obtain ⟨hj, hrest⟩ := hup
    have hstep : ∀ y, responsePass fops attrs has_edge nextf m_exp da (j :: rest) rt y
        = responsePass fops attrs has_edge nextf m_exp da rest
          (Function.update rt j (rt j +
            (rt (nextf j) +
              1 / ((attrs j).erodibility * fops.powf (da j) m_exp) *
                (if (has_edge j (nextf j)).1 then (has_edge j (nextf j)).2 else 0)))) y := by
      intro y
      unfold responsePass
      rw [List.foldl_cons]
    have hndr : (rest ++ (j :: seen)).Nodup := by
      refine (List.Perm.nodup_iff List.perm_middle).mpr ?_
      simpa using hnd
    have hns : (j ∉ rest ∧ j ∉ seen) ∧ (rest ++ seen).Nodup := by simpa using hnd
    have hjrest : j ∉ rest := hns.1.1
    have hjseen : j ∉ seen := hns.1.2
    have hzr : ∀ x ∈ rest,
        Function.update rt j (rt j +
          (rt (nextf j) +
            1 / ((attrs j).erodibility * fops.powf (da j) m_exp) *
              (if (has_edge j (nextf j)).1 then (has_edge j (nextf j)).2 else 0))) x = 0 := by
      intro x hx
      rw [Function.update_noteq (show x ≠ j by rintro rfl; exact hjrest hx)]
      exact hz x (List.mem_cons_of_mem _ hx)
    rcases List.mem_cons.mp hi with rfl | hir
    · -- the head site: written once, never touched again
      have hzj : rt i = 0 := hz i (List.mem_cons_self _ _)
      simp only [hstep]
      rw [responsePass_untouched fops attrs has_edge nextf m_exp da rest _ i hjrest,
        Function.update_same, hzj]
      by_cases hself : nextf i = i
      · rw [if_pos hself, hself, hzj]
        ring
      · have hsmem : nextf i ∈ seen := hj.resolve_left hself
        have hnotr : nextf i ∉ rest := by
          intro h
          exact (List.disjoint_of_nodup_append hndr) h (List.mem_cons_of_mem _ hsmem)
        rw [if_neg hself,
          responsePass_untouched fops attrs has_edge nextf m_exp da rest _ _ hnotr,
          Function.update_noteq (show nextf i ≠ i by
            intro h; rw [h] at hsmem; exact hjseen hsmem)]
        ring
    · -- a later site: the IH applies with the head moved into `seen`
      simp only [hstep]
      exact ih (j :: seen) _ hndr hrest hzr i hir

/-- **C6.** In the upstream response-time pass over a basin order, every
non-outlet site ends with `response_time[j] + d / (erodibility * area^m)`
(`j = next[i]`, `d` the edge distance when the edge exists, else 0; the
code's `+=` on a zero-initialized, once-written entry equals `=`), and the
outlet itself stays at 0 provided `has_edge(o,o)` reports no edge or
distance 0.  The basin order contract is spec §4.2 (`drainage_basin.rs` is
not among the verified sources). -/
theorem claim_C6_response_time (fops : FloatOps) (attrs : ℕ → TerrainAttributes)
    (has_edge : ℕ → ℕ → Bool × ℚ) (nextf : ℕ → ℕ) (m_exp : ℚ) (da : ℕ → ℚ)
    (num o : ℕ) (order : List ℕ) (rt0 : ℕ → ℚ)
    (hnd : order.Nodup) (hup : upOK nextf [] order)
    (hz : ∀ i ∈ order, rt0 i = 0)
    (ho : nextf o = o) (hoin : o ∈ order)
    (hbasin : ∀ i ∈ order, InBasin nextf num o i) :
    (∀ i ∈ order, i ≠ o →
      responsePass fops attrs has_edge nextf m_exp da order rt0 i
        = responsePass fops attrs has_edge nextf m_exp da order rt0 (nextf i)
          + (if (has_edge i (nextf i)).1 then (has_edge i (nextf i)).2 else 0)
            / ((attrs i).erodibility * fops.powf (da i) m_exp)) ∧
    (((has_edge o o).1 = false ∨ (has_edge o o).2 = 0) →
      responsePass fops attrs has_edge nextf m_exp da order rt0 o = 0) := by
  have hchar := responsePass_char fops attrs has_edge nextf m_exp da order [] rt0
    (by simpa using hnd) hup hz
  constructor
  · intro i hi hio
    have hself : nextf i ≠ i := basin_no_selfloop nextf num o i hio (hbasin i hi)
    have h := hchar i hi
    rw [if_neg hself] at h
    rw [h]
    ring
  · intro hprov
    have h := hchar o hoin
    rw [if_pos ho, ho] at h
    have hd : (if (has_edge o o).1 then (has_edge o o).2 else 0) = 0 := by
      rcases hprov with h1 | h2
      · rw [if_neg (by rw [h1]; simp)]
      · rw [h2]
        exact ite_self 0
    rw [hd] at h
    rw [h]
    ring

theorem claim_C6_witness :
    (∀ i ∈ [0, 1], i ≠ 0 →
      responsePass fops0 attrsW heW zn (1/2) onef [0, 1] zf i
        = responsePass fops0 attrsW heW zn (1/2) onef [0, 1] zf (zn i)
          + (if (heW i (zn i)).1 then (heW i (zn i)).2 else 0)
            / ((attrsW i).erodibility * fops0.powf (onef i) (1/2))) ∧
    (((heW 0 0).1 = false ∨ (heW 0 0).2 = 0) →
      responsePass fops0 attrsW heW zn (1/2) onef [0, 1] zf 0 = 0) :=
  claim_C6_response_time fops0 attrsW heW zn (1/2) onef 2 0 [0, 1] zf
    (by decide)
    (by refine ⟨Or.inl rfl, Or.inr (by simp [zn]), trivial⟩)
    (fun i _ => rfl) rfl (by simp)
    (fun i _ => ⟨1, by simp, rfl⟩)

theorem elevPass_step (fops : FloatOps) (attrs : ℕ → TerrainAttributes)
    (has_edge : ℕ → ℕ → Bool × ℚ) (nextf : ℕ → ℕ) (rt : ℕ → ℚ) (o : ℕ)
    (j : ℕ) (rest : List ℕ) (acc : (ℕ → ℚ) × Bool) :
    elevPass fops attrs has_edge nextf rt o (j :: rest) acc
      = elevPass fops attrs has_edge nextf rt o rest
        (Function.update acc.1 j
          (elevFormula fops attrs has_edge nextf rt o (acc.1 o) j (acc.1 (nextf j))),
         acc.2 || decide
          (elevFormula fops attrs has_edge nextf rt o (acc.1 o) j (acc.1 (nextf j))
            ≠ acc.1 j)) := by
  unfold elevPass elevFormula
  rw [List.foldl_cons]

theorem elevPass_char (fops : FloatOps) (attrs : ℕ → TerrainAttributes)
    (has_edge : ℕ → ℕ → Bool × ℚ) (nextf : ℕ → ℕ) (rt : ℕ → ℚ) (o : ℕ) :
    ∀ (order seen : List ℕ) (acc : (ℕ → ℚ) × Bool),
      (order ++ seen).Nodup → upOK nextf seen order → o ∉ order →
      (∀ i ∈ order, nextf i ≠ i) →
      (∀ x, x ∉ order →
        (elevPass fops attrs has_edge nextf rt o order acc).1 x = acc.1 x) ∧
      (∀ i ∈ order,
        (elevPass fops attrs has_edge nextf rt o order acc).1 i
          = elevFormula fops attrs has_edge nextf rt o (acc.1 o) i
              ((elevPass fops attrs has_edge nextf rt o order acc).1 (nextf i))) := by
  intro order
  induction order with
  | nil =>
    intro seen acc _ _ _ _
    exact ⟨fun x _ => rfl, fun i hi => by simp at hi⟩
  | cons j rest ih =>
    intro seen acc hnd hup ho hne
    obtain ⟨hj, hrest⟩ := hup
    have hjne : nextf j ≠ j := hne j (List.mem_cons_self _ _)
    have hjseen : nextf j ∈ seen := hj.resolve_left hjne
    have hns : (j ∉ rest ∧ j ∉ seen) ∧ (rest ++ seen).Nodup := by simpa using hnd
    have hndr : (rest ++ (j :: seen)).Nodup := by
      refine (List.Perm.nodup_iff List.perm_middle).mpr ?_
      simpa using hnd
    have hstep := elevPass_step fops attrs has_edge nextf rt o j rest acc
    have hor : o ∉ rest := fun h => ho (List.mem_cons_of_mem _ h)
    have hoj : o ≠ j := fun h => ho (h ▸ List.mem_cons_self _ _)
    have hner : ∀ i ∈ rest, nextf i ≠ i := fun i hi => hne i (List.mem_cons_of_mem _ hi)
    obtain ⟨ihu, ihm⟩ := ih (j :: seen)
      (Function.update acc.1 j
        (elevFormula fops attrs has_edge nextf rt o (acc.1 o) j (acc.1 (nextf j))),
       acc.2 || decide
        (elevFormula fops attrs has_edge nextf rt o (acc.1 o) j (acc.1 (nextf j))
          ≠ acc.1 j)) hndr hrest hor hner
    constructor
    · intro x hx
      have hxj : x ≠ j := fun h => hx (h ▸ List.mem_cons_self _ _)
      have hxr : x ∉ rest := fun h => hx (List.mem_cons_of_mem _ h)
      rw [hstep, ihu x hxr]
      exact Function.update_noteq hxj _ _
    · intro i hi
      rcases List.mem_cons.mp hi with rfl | hir
      · have hnjr : nextf i ∉ rest := by
          intro h
          exact (List.disjoint_of_nodup_append hndr) h (List.mem_cons_of_mem _ hjseen)
        rw [hstep, ihu i hns.1.1, ihu (nextf i) hnjr]
        dsimp only
        rw [Function.update_same, Function.update_noteq hjne]
      · have h := ihm i hir
        rw [hstep, h]
        dsimp only
        rw [Function.update_noteq hoj]

/-- **C5.** In the upstream elevation pass over a basin order, the outlet's
elevation is unchanged, and every other basin site's stored value is
`elevation[o] + uplift_rate[i] * max(0, rt[i] - rt[o])`, except that when
`max_slope[i]` is set and the slope toward `j = next[i]` exceeds its
tangent, the stored value is exactly `elevation[j] + tan(max_slope[i]) * d`
(see `elevFormula`).  A non-negative tangent at the outlet (max_slope is a
slope angle) keeps the outlet fixed during the pass; the basin order
contract is spec §4.2 (`drainage_basin.rs` is not among the verified
sources). -/
theorem claim_C5_elevation (fops : FloatOps) (attrs : ℕ → TerrainAttributes)
    (has_edge : ℕ → ℕ → Bool × ℚ) (nextf : ℕ → ℕ) (rt : ℕ → ℚ)
    (num o : ℕ) (order : List ℕ) (alt0 : ℕ → ℚ) (ch0 : Bool)
    (hnd : order.Nodup) (hup : upOK nextf [] order)
    (ho : nextf o = o) (hoin : o ∈ order)
    (hbasin : ∀ i ∈ order, InBasin nextf num o i)
    (htan : ∀ ang, (attrs o).max_slope = some ang → 0 ≤ fops.tan ang) :
    (elevPass fops attrs has_edge nextf rt o order (alt0, ch0)).1 o = alt0 o ∧
    (∀ i ∈ order, i ≠ o →
      (elevPass fops attrs has_edge nextf rt o order (alt0, ch0)).1 i
        = elevFormula fops attrs has_edge nextf rt o (alt0 o) i
            ((elevPass fops attrs has_edge nextf rt o order (alt0, ch0)).1 (nextf i))) := by
  cases order with
  | nil => simp at hoin
  | cons h t =>
    obtain ⟨hh, hrest⟩ := hup
    have hho : h = o := by
      by_contra hne
      exact basin_no_selfloop nextf num o h hne (hbasin h (List.mem_cons_self _ _))
        (hh.resolve_right (by simp))
    subst hho
    have hvo : elevFormula fops attrs has_edge nextf rt h (alt0 h) h (alt0 (nextf h))
        = alt0 h := by
      unfold elevFormula
      have hz : alt0 h + (attrs h).uplift_rate * max (rt h - rt h) 0 = alt0 h := by
        rw [sub_self, max_self, mul_zero, add_zero]
      cases hms : (attrs h).max_slope with
      | none => simp only [hms]; exact hz
      | some ang =>
        simp only [hms]
        rw [ho, hz, sub_self, zero_div, if_neg (not_lt_of_ge (htan ang hms))]
    have hstep := elevPass_step fops attrs has_edge nextf rt h h t (alt0, ch0)
    dsimp only at hstep
    rw [hvo, Function.update_eq_self] at hstep
    have hnds : (h ∉ t) ∧ t.Nodup := List.nodup_cons.mp hnd
    have hner : ∀ i ∈ t, nextf i ≠ i := by
      intro i hi
      have hio : i ≠ h := fun he => hnds.1 (he ▸ hi)
      exact basin_no_selfloop nextf num h i hio (hbasin i (List.mem_cons_of_mem _ hi))
    obtain ⟨ihu, ihm⟩ := elevPass_char fops attrs has_edge nextf rt h t [h]
      (alt0, ch0 || decide (alt0 h ≠ alt0 h))
      (by
        rw [List.nodup_append]
        exact ⟨hnds.2, List.nodup_singleton h,
          fun x hx hmem => hnds.1 (by rwa [List.mem_singleton.mp hmem] at hx)⟩)
      hrest hnds.1 hner
    constructor
    · rw [hstep]
      exact ihu h hnds.1
    · intro i hi hio
      have hit : i ∈ t := (List.mem_cons.mp hi).resolve_left hio
      rw [hstep]
      exact ihm i hit

theorem claim_C5_witness :
    (elevPass fops0 attrsW heW zn zf 0 [0, 1] (zf, false)).1 0 = zf 0 ∧
    (∀ i ∈ [0, 1], i ≠ 0 →
      (elevPass fops0 attrsW heW zn zf 0 [0, 1] (zf, false)).1 i
        = elevFormula fops0 attrsW heW zn zf 0 (zf 0) i
            ((elevPass fops0 attrsW heW zn zf 0 [0, 1] (zf, false)).1 (zn i))) :=
  claim_C5_elevation fops0 attrsW heW zn zf 2 0 [0, 1] zf false
    (by decide)
    ⟨Or.inl rfl, Or.inr (by simp [zn]), trivial⟩
    rfl (by simp) (fun i _ => ⟨1, by simp, rfl⟩)
    (fun ang h => Option.noConfusion h)

theorem update_iterates (next : ℕ → ℕ) (j v start : ℕ) (L : ℕ)
    (havoid : ∀ m, m ≤ L → next^[m] start ≠ j) :
    ∀ m, m ≤ L → (Function.update next j v)^[m] start = next^[m] start := by
  intro m
  induction m with
  | zero => intro _; rfl
  | succ k ih =>
    intro hk
    rw [Function.iterate_succ_apply', Function.iterate_succ_apply',
      ih (by omega), Function.update_noteq (havoid k (by omega))]

theorem carveFlip_char :
    ∀ (fuel : ℕ) (next : ℕ → ℕ) (j i L : ℕ), L < fuel →
    (∀ m, m < L → next (next^[m] j) ≠ next^[m] j) →
    next (next^[L] j) = next^[L] j →
    (∀ a b, a < b → b ≤ L → next^[a] j ≠ next^[b] j) →
    (carveFlip fuel next j i) j = i ∧
    (∀ m, m < L → (carveFlip fuel next j i) (next^[m+1] j) = next^[m] j) ∧
    (∀ x, (∀ m, m ≤ L → x ≠ next^[m] j) → (carveFlip fuel next j i) x = next x) := by
  intro fuel
  induction fuel with
  | zero => intro next j i L hLf; omega
  | succ f ih =>
    intro next j i L hLf hstep hself hdist
    cases L with
    | zero =>
      have hjj : next j = j := by simpa using hself
      have hflip : carveFlip (f + 1) next j i = Function.update next j i := by
        rw [carveFlip, if_neg (by simpa using hjj)]
      refine ⟨by rw [hflip, Function.update_same], by omega, ?_⟩
      intro x hx
      have hxj : x ≠ j := by simpa using hx 0 (le_refl 0)
      rw [hflip, Function.update_noteq hxj]
    | succ L' =>
      have hjj : next j ≠ j := by simpa using hstep 0 (by omega)
      have hflip : carveFlip (f + 1) next j i
          = carveFlip f (Function.update next j i) (next j) j := by
        rw [carveFlip, if_pos (by simpa using hjj)]
      have havoid : ∀ m, m ≤ L' → next^[m] (next j) ≠ j := by
        intro m hm heq
        exact hdist 0 (m + 1) (by omega) (by omega)
          (by rw [← Function.iterate_succ_apply next m j] at heq; exact heq.symm)
      have hiter : ∀ m, m ≤ L' →
          (Function.update next j i)^[m] (next j) = next^[m+1] j := by
        intro m hm
        rw [update_iterates next j i (next j) L' havoid m hm,
          ← Function.iterate_succ_apply]
      have hih := ih (Function.update next j i) (next j) j L' (by omega)
        (by
          intro m hm
          rw [hiter m (by omega),
            Function.update_noteq (by
              intro heq
              exact hdist 0 (m + 1) (by omega) (by omega) heq.symm)]
          exact hstep (m + 1) (by omega))
        (by
          rw [hiter L' (le_refl L'),
            Function.update_noteq (by
              intro heq
              exact hdist 0 (L' + 1) (by omega) (by omega) heq.symm)]
          exact hself)
        (by
          intro a b hab hbL heq
          rw [hiter a (by omega), hiter b (by omega)] at heq
          exact hdist (a + 1) (b + 1) (by omega) (by omega) heq)
      obtain ⟨hA, hB, hC⟩ := hih
      have hjavoid : ∀ m, m ≤ L' → j ≠ (Function.update next j i)^[m] (next j) := by
        intro m hm heq
        rw [hiter m hm] at heq
        exact hdist 0 (m + 1) (by omega) (by omega) heq
      refine ⟨?_, ?_, ?_⟩
      · rw [hflip, hC j (fun m hm => hjavoid m hm), Function.update_same]
      · intro m hm
        cases m with
        | zero =>
          simpa using (hflip ▸ hA)
        | succ m' =>
          have := hB m' (by omega)
          rw [hiter (m' + 1) (by omega), hiter m' (by omega)] at this
          rw [hflip]
          exact this
      · intro x hx
        have hxj : x ≠ j := by simpa using hx 0 (by omega)
        rw [hflip, hC x (by
            intro m hm heq
            rw [hiter m hm] at heq
            exact hx (m + 1) (by omega) heq),
          Function.update_noteq hxj]

theorem iterate_stable (f : ℕ → ℕ) (x : ℕ) (h : f x = x) : ∀ k, f^[k] x = x := by
  intro k
  induction k with
  | zero => rfl
  | succ n ih => rw [Function.iterate_succ_apply', ih, h]

theorem foldl_max_ge (f : ℕ → ℕ) :
    ∀ (L : List ℕ) (acc : ℕ),
      acc ≤ L.foldl (fun m i => max m (f i)) acc ∧
      ∀ i ∈ L, f i ≤ L.foldl (fun m i => max m (f i)) acc := by
  intro L
  induction L with
  | nil => exact fun acc => ⟨le_refl _, by simp⟩
  | cons a rest ih =>
    intro acc
    rw [List.foldl_cons]
    refine ⟨le_trans (le_max_left _ _) (ih (max acc (f a))).1, ?_⟩
    intro i hi
    rcases List.mem_cons.mp hi with rfl | hi'
    · exact le_trans (le_max_right _ _) (ih (max acc (f i))).1
    · exact (ih (max acc (f a))).2 i hi'

theorem maxDeg_ge (num : ℕ) (nbrs : ℕ → List (ℕ × ℚ)) (i : ℕ) (hi : i < num) :
    (nbrs i).length ≤ maxDeg num nbrs :=
  (foldl_max_ge (fun i => (nbrs i).length) (List.range num) 0).2 i
    (List.mem_range.mpr hi)

theorem unvis_update (num : ℕ) (v : ℕ → Bool) (i : ℕ) (hi : i < num)
    (hv : v i = false) :
    ((Finset.range num).filter (fun x => Function.update v i true x = false)).card + 1
      = ((Finset.range num).filter (fun x => v x = false)).card := by
  have h1 : (Finset.range num).filter (fun x => Function.update v i true x = false)
      = ((Finset.range num).filter (fun x => v x = false)).erase i := by
    ext x
    simp only [Finset.mem_filter, Finset.mem_erase, Finset.mem_range]
    constructor
    · intro ⟨hx, hu⟩
      by_cases hxi : x = i
      · subst hxi; rw [Function.update_same] at hu; simp at hu
      · rw [Function.update_noteq hxi] at hu; exact ⟨hxi, hx, hu⟩
    · intro ⟨hxi, hx, hu⟩
      rw [Function.update_noteq hxi]
      exact ⟨hx, hu⟩
  rw [h1, Finset.card_erase_of_mem
    (by simp only [Finset.mem_filter, Finset.mem_range]; exact ⟨hi, hv⟩)]
  have hpos : 0 < ((Finset.range num).filter (fun x => v x = false)).card :=
    Finset.card_pos.mpr ⟨i, by
      simp only [Finset.mem_filter, Finset.mem_range]; exact ⟨hi, hv⟩⟩
  omega

/-- First-hit bound: a site of an in-range forest that reaches the outlet
set at all reaches it within `num` steps. -/
theorem first_hit (num : ℕ) (nx : ℕ → ℕ) (outlets : List ℕ) (i : ℕ) (hi : i < num)
    (hcl : ∀ x, x < num → nx x < num) (h : ∃ n, nx^[n] i ∈ outlets) :
    ∃ n, n ≤ num ∧ nx^[n] i ∈ outlets := by
  have hrange : ∀ m, nx^[m] i < num := iterate_lt_num num nx i hi hcl
  set n₀ := Nat.find h with hn₀
  have hspec : nx^[n₀] i ∈ outlets := Nat.find_spec h
  have hmin : ∀ m, m < n₀ → nx^[m] i ∉ outlets := fun m hm => Nat.find_min h hm
  have hinj : Set.InjOn (fun m => nx^[m] i) (Finset.range (n₀ + 1)) := by
    intro a ha b hb hab
    simp only [Finset.coe_range, Set.mem_Iio] at ha hb
    simp only at hab
    by_contra hne
    rcases Nat.lt_or_ge a b with hlt | hge
    · have hshift : nx^[(n₀ - b) + a] i ∈ outlets := by
        rw [Function.iterate_add_apply, hab, ← Function.iterate_add_apply,
          Nat.sub_add_cancel (by omega)]
        exact hspec
      exact hmin _ (by omega) hshift
    · have hlt' : b < a := by omega
      have hshift : nx^[(n₀ - a) + b] i ∈ outlets := by
        rw [Function.iterate_add_apply, ← hab, ← Function.iterate_add_apply,
          Nat.sub_add_cancel (by omega)]
        exact hspec
      exact hmin _ (by omega) hshift
  have hmaps : ∀ a ∈ Finset.range (n₀ + 1), (fun m => nx^[m] i) a ∈ Finset.range num := by
    intro a _
    simpa using hrange a
  have hcard := Finset.card_le_card_of_injOn _ hmaps hinj
  simp only [Finset.card_range] at hcard
  exact ⟨n₀, by omega, hspec⟩

/-- Every site's Phase A chain ends at its subroot, where the first
self-loop of the chain sits; the chain is distinct (strict descent) and
stays inside the site's lake class. -/
theorem chain_to_selfloop (num : ℕ) (next₀ subroot : ℕ → ℕ) (outlets : List ℕ)
    (elev : ℕ → ℚ) (ctx : CarveCtx num next₀ subroot outlets elev)
    (j : ℕ) (hj : j < num) :
    ∃ L, L < num ∧ next₀^[L] j = subroot j ∧
      next₀ (next₀^[L] j) = next₀^[L] j ∧
      (∀ m, m < L → next₀ (next₀^[m] j) ≠ next₀^[m] j) ∧
      (∀ a b, a < b → b ≤ L → next₀^[a] j ≠ next₀^[b] j) ∧
      (∀ m, m ≤ L → next₀^[m] j < num ∧ subroot (next₀^[m] j) = subroot j) := by
  have H : ∀ i, i < num → next₀ i < num ∧ (next₀ i = i ∨ elev (next₀ i) < elev i) :=
    fun i hi => ⟨ctx.n0_range i hi, ctx.n0_desc i hi⟩
  have hrange : ∀ m, next₀^[m] j < num := iterate_lt_num num next₀ j hj ctx.n0_range
  have hclass : ∀ m, subroot (next₀^[m] j) = subroot j := by
    intro m
    induction m with
    | zero => rfl
    | succ k ih =>
      rw [Function.iterate_succ_apply', ctx.sb_next _ (hrange k), ih]
  have hsbloop : next₀ (subroot j) = subroot j := by
    rcases ctx.sb_term j hj with ho | hsl
    · exact (ctx.sb_out _ ho).2.1
    · exact hsl
  obtain ⟨n, hn⟩ := ctx.sb_reach j hj
  have hex : ∃ k, next₀ (next₀^[k] j) = next₀^[k] j := ⟨n, by rw [hn]; exact hsbloop⟩
  set L := Nat.find hex with hL
  have hself : next₀ (next₀^[L] j) = next₀^[L] j := Nat.find_spec hex
  have hstep : ∀ m, m < L → next₀ (next₀^[m] j) ≠ next₀^[m] j :=
    fun m hm => Nat.find_min hex hm
  have hLn : L ≤ n := Nat.find_min' hex (by rw [hn]; exact hsbloop)
  have hLb : next₀^[L] j = subroot j := by
    have hstab : ∀ k, next₀^[L + k] j = next₀^[L] j := by
      intro k
      rw [Nat.add_comm, Function.iterate_add_apply]
      exact iterate_stable next₀ _ hself k
    rw [← hn]
    have := hstab (n - L)
    rw [Nat.add_sub_cancel' hLn] at this
    exact this.symm
  have hLnum : L < num := by
    by_contra hge
    push_neg at hge
    exact descent_chain_bound num next₀ elev j hj H
      (fun m hm => fun he => hstep m (by omega) he.symm)
  have hdist : ∀ a b, a < b → b ≤ L → next₀^[a] j ≠ next₀^[b] j := by
    intro a b hab hbL heq
    have := descent_path_strict num next₀ elev j hj H L
      (fun m hm => fun he => hstep m hm he.symm) a b hab hbL
    rw [heq] at this
    exact absurd this (lt_irrefl _)
  exact ⟨L, hLnum, hLb, hself, hstep, hdist, fun m _ => ⟨hrange m, hclass m⟩⟩

/-- The carve of one undrained neighbor `j` from a drained popped site `i`:
the flow along `j`'s Phase A chain is flipped to point at `i`, `j`'s class
becomes drained, and the core invariant is preserved — in particular every
newly drained site now reaches an outlet through the flipped chain and `i`. -/
theorem carve_step (num : ℕ) (next₀ subroot : ℕ → ℕ) (outlets : List ℕ)
    (elev : ℕ → ℚ) (ctx : CarveCtx num next₀ subroot outlets elev)
    (s : LakeState) (inv : CoreInv num next₀ subroot outlets s)
    (i j : ℕ) (hi : i < num) (hj : j < num)
    (hdi : drainedS subroot s.root i) (hdj : ¬ drainedS subroot s.root j)
    (next' : ℕ → ℕ) (root' : ℕ → Option ℕ)
    (hnext' : next' = carveFlip num s.next j i)
    (hroot' : root' = Function.update s.root (subroot j) (s.root (subroot i))) :
    (∀ x, x < num → next' x < num) ∧
    (∀ x, x < num → ¬ drainedS subroot root' x → next' x = next₀ x) ∧
    (∀ x, x < num → drainedS subroot root' x →
      ∃ n, next'^[n] x ∈ outlets ∧
        ∀ m, m ≤ n → next'^[m] x < num ∧ drainedS subroot root' (next'^[m] x)) ∧
    (∀ o, o ∈ outlets → next' o = o) ∧
    (∀ o, o ∈ outlets → (root' o).isSome) ∧
    (∀ x, drainedS subroot s.root x → drainedS subroot root' x) ∧
    drainedS subroot root' j := by
  have hdr : ∀ x, drainedS subroot root' x ↔
      (drainedS subroot s.root x ∨ subroot x = subroot j) := by
    intro x
    by_cases hxb : subroot x = subroot j
    · constructor
      · intro _; exact Or.inr hxb
      · intro _
        show (root' (subroot x)).isSome
        rw [hroot', hxb, Function.update_same]
        exact hdi
    · constructor
      · intro h
        refine Or.inl ?_
        have h' : (root' (subroot x)).isSome := h
        rw [hroot', Function.update_noteq hxb] at h'
        exact h'
      · intro h
        rcases h with h | h
        · show (root' (subroot x)).isSome
          rw [hroot', Function.update_noteq hxb]
          exact h
        · exact absurd h hxb
  obtain ⟨L, hLnum, hLb, hself₀, hstep₀, hdist₀, hchain⟩ :=
    chain_to_selfloop num next₀ subroot outlets elev ctx j hj
  have hcund : ∀ m, m ≤ L → ¬ drainedS subroot s.root (next₀^[m] j) := by
    intro m hm hd
    apply hdj
    show (s.root (subroot j)).isSome
    have hd' : (s.root (subroot (next₀^[m] j))).isSome := hd
    rwa [(hchain m hm).2] at hd'
  have hiter : ∀ m, m ≤ L → s.next^[m] j = next₀^[m] j := by
    intro m
    induction m with
    | zero => intro _; rfl
    | succ k ih =>
      intro hk
      rw [Function.iterate_succ_apply', Function.iterate_succ_apply',
        ih (by omega), inv.frozen _ (hchain k (by omega)).1 (hcund k (by omega))]
  obtain ⟨hA, hB, hC⟩ := carveFlip_char num s.next j i L hLnum
    (by
      intro m hm
      rw [hiter m (by omega), inv.frozen _ (hchain m (by omega)).1 (hcund m (by omega))]
      exact fun he => hstep₀ m hm he
    )
    (by
      rw [hiter L (le_refl L), inv.frozen _ (hchain L (le_refl L)).1 (hcund L (le_refl L))]
      exact hself₀)
    (by
      intro a b hab hbL
      rw [hiter a (by omega), hiter b (by omega)]
      exact hdist₀ a b hab hbL)
  rw [← hnext'] at hA hB hC
  have hB' : ∀ m, m < L → next' (next₀^[m+1] j) = next₀^[m] j := by
    intro m hm
    have hb := hB m hm
    rwa [hiter (m+1) (by omega), hiter m (by omega)] at hb
  have hC' : ∀ x, (∀ m, m ≤ L → x ≠ next₀^[m] j) → next' x = s.next x := by
    intro x hx
    exact hC x (fun m hm => by rw [hiter m hm]; exact hx m hm)
  have hoffd : ∀ x, drainedS subroot s.root x → next' x = s.next x := by
    intro x hd
    apply hC'
    intro m hm heq
    exact hcund m hm (heq ▸ hd)
  have hsame : ∀ (n x : ℕ),
      (∀ m, m ≤ n → drainedS subroot s.root (s.next^[m] x)) →
      ∀ m, m ≤ n → next'^[m] x = s.next^[m] x := by
    intro n x hcl m
    induction m with
    | zero => intro _; rfl
    | succ k ih =>
      intro hk
      rw [Function.iterate_succ_apply', Function.iterate_succ_apply',
        ih (by omega), hoffd _ (hcl k (by omega))]
  have holdreach : ∀ x, x < num → drainedS subroot s.root x →
      ∃ n, next'^[n] x ∈ outlets ∧
        ∀ m, m ≤ n → next'^[m] x < num ∧ drainedS subroot root' (next'^[m] x) := by
    intro x hx hd
    obtain ⟨n, hno, hncl⟩ := inv.reach x hx hd
    have hs := hsame n x (fun m hm => (hncl m hm).2)
    refine ⟨n, by rw [hs n (le_refl n)]; exact hno, ?_⟩
    intro m hm
    rw [hs m hm]
    exact ⟨(hncl m hm).1, (hdr _).mpr (Or.inl (hncl m hm).2)⟩
  have hchain_reach : ∀ m, m ≤ L →
      ∃ n, next'^[n] (next₀^[m] j) ∈ outlets ∧
        ∀ k, k ≤ n → next'^[k] (next₀^[m] j) < num ∧
          drainedS subroot root' (next'^[k] (next₀^[m] j)) := by
    intro m
    induction m with
    | zero =>
      intro _
      simp only [Function.iterate_zero_apply]
      obtain ⟨ni, hiout, hicl⟩ := holdreach i hi hdi
      refine ⟨ni + 1, ?_, ?_⟩
      · rw [Function.iterate_succ_apply, hA]
        exact hiout
      · intro k hk
        cases k with
        | zero =>
          simp only [Function.iterate_zero_apply]
          exact ⟨hj, (hdr j).mpr (Or.inr rfl)⟩
        | succ k' =>
          rw [Function.iterate_succ_apply, hA]
          exact hicl k' (by omega)
    | succ m' ih =>
      intro hm
      obtain ⟨n', hno, hncl⟩ := ih (by omega)
      refine ⟨n' + 1, ?_, ?_⟩
      · rw [Function.iterate_succ_apply, hB' m' (by omega)]
        exact hno
      · intro k hk
        cases k with
        | zero =>
          simp only [Function.iterate_zero_apply]
          exact ⟨(hchain (m'+1) hm).1, (hdr _).mpr (Or.inr (hchain (m'+1) hm).2)⟩
        | succ k' =>
          rw [Function.iterate_succ_apply, hB' m' (by omega)]
          exact hncl k' (by omega)
  have hclassreach : ∀ d x, x < num → subroot x = subroot j →
      next₀^[d] x = subroot j →
      ∃ n, next'^[n] x ∈ outlets ∧
        ∀ m, m ≤ n → next'^[m] x < num ∧ drainedS subroot root' (next'^[m] x) := by
    intro d
    induction d with
    | zero =>
      intro x hx hsb hd0
      simp only [Function.iterate_zero_apply] at hd0
      subst hd0
      have hcr := hchain_reach L (le_refl L)
      rwa [hLb] at hcr
    | succ d' ih =>
      intro x hx hsb hd
      by_cases hon : ∃ m, m ≤ L ∧ x = next₀^[m] j
      · obtain ⟨m, hmL, rfl⟩ := hon
        exact hchain_reach m hmL
      · push_neg at hon
        have hedge : next' x = next₀ x := by
          rw [hC' x hon]
          refine inv.frozen x hx ?_
          intro hd'
          apply hdj
          show (s.root (subroot j)).isSome
          have hd'' : (s.root (subroot x)).isSome := hd'
          rwa [hsb] at hd''
        have hy : next₀ x < num := ctx.n0_range x hx
        have hys : subroot (next₀ x) = subroot j := by rw [ctx.sb_next x hx, hsb]
        have hyd : next₀^[d'] (next₀ x) = subroot j := by
          rw [← Function.iterate_succ_apply]
          exact hd
        obtain ⟨n, hno, hncl⟩ := ih (next₀ x) hy hys hyd
        refine ⟨n + 1, ?_, ?_⟩
        · rw [Function.iterate_succ_apply, hedge]
          exact hno
        · intro m hm
          cases m with
          | zero =>
            simp only [Function.iterate_zero_apply]
            exact ⟨hx, (hdr x).mpr (Or.inr hsb)⟩
          | succ m' =>
            rw [Function.iterate_succ_apply, hedge]
            exact hncl m' (by omega)
  refine ⟨?_, ?_, ?_, ?_, ?_, fun x hd => (hdr x).mpr (Or.inl hd),
    (hdr j).mpr (Or.inr rfl)⟩
  · intro x hx
    by_cases hon : ∃ m, m ≤ L ∧ x = next₀^[m] j
    · obtain ⟨m, hmL, rfl⟩ := hon
      cases m with
      | zero =>
        simp only [Function.iterate_zero_apply]
        rw [hA]
        exact hi
      | succ m' =>
        rw [hB' m' (by omega)]
        exact (hchain m' (by omega)).1
    · push_neg at hon
      rw [hC' x hon]
      exact inv.nrange x hx
  · intro x hx hnd
    have hxb : subroot x ≠ subroot j := fun h => hnd ((hdr x).mpr (Or.inr h))
    have hnd₀ : ¬ drainedS subroot s.root x := fun h => hnd ((hdr x).mpr (Or.inl h))
    have hon : ∀ m, m ≤ L → x ≠ next₀^[m] j := by
      intro m hm heq
      exact hxb (by rw [heq]; exact (hchain m hm).2)
    rw [hC' x hon]
    exact inv.frozen x hx hnd₀
  · intro x hx hd
    rcases (hdr x).mp hd with hold | hsb
    · exact holdreach x hx hold
    · obtain ⟨n₀, hn₀⟩ := ctx.sb_reach x hx
      exact hclassreach n₀ x hx hsb (by rw [hn₀, hsb])
  · intro o ho
    have hoR : drainedS subroot s.root o := by
      show (s.root (subroot o)).isSome
      rw [(ctx.sb_out o ho).1]
      exact inv.outRoot o ho
    rw [hoffd o hoR]
    exact inv.outFix o ho
  · intro o ho
    rw [hroot']
    by_cases hob : o = subroot j
    · exfalso
      apply hdj
      show (s.root (subroot j)).isSome
      rw [← hob]
      exact inv.outRoot o ho
    · rw [Function.update_noteq hob]
      exact inv.outRoot o ho

theorem processNeighbors_cons (num : ℕ) (subroot : ℕ → ℕ) (i : ℕ) (p : ℕ × ℚ)
    (rest : List (ℕ × ℚ)) (s : LakeState) :
    processNeighbors num subroot i (p :: rest) s =
      processNeighbors num subroot i rest
        (if s.visited p.1 then s
         else if (s.root (subroot p.1)).isNone then
           { s with
             queue := ⟨p.1, p.2⟩ :: s.queue,
             next := carveFlip num s.next p.1 i,
             root := Function.update s.root (subroot p.1) (s.root (subroot i)) }
         else { s with queue := ⟨p.1, p.2⟩ :: s.queue }) := by
  unfold processNeighbors
  rw [List.foldl_cons]
  congr 1
  by_cases hv : s.visited p.1
  · simp [hv]
  · by_cases hr : (s.root (subroot p.1)).isNone
    · simp [hv, hr]
    · simp [hv, hr]

/-- The neighbor-processing fold preserves the core invariant and the queue
facts; pushes cover the processed neighbor list; the queue only grows, by at
most one element per neighbor. -/
theorem processNeighbors_inv (num : ℕ) (next₀ subroot : ℕ → ℕ) (outlets : List ℕ)
    (elev : ℕ → ℚ) (ctx : CarveCtx num next₀ subroot outlets elev)
    (i : ℕ) (hi : i < num) :
    ∀ (pl : List (ℕ × ℚ)) (s : LakeState),
      (∀ p ∈ pl, p.1 < num) →
      CoreInv num next₀ subroot outlets s →
      drainedS subroot s.root i →
      (∀ e, e ∈ s.queue → e.index < num ∧ drainedS subroot s.root e.index) →
      CoreInv num next₀ subroot outlets (processNeighbors num subroot i pl s) ∧
      (processNeighbors num subroot i pl s).visited = s.visited ∧
      (∀ x, drainedS subroot s.root x →
        drainedS subroot (processNeighbors num subroot i pl s).root x) ∧
      (∀ e, e ∈ s.queue → e ∈ (processNeighbors num subroot i pl s).queue) ∧
      (∀ e, e ∈ (processNeighbors num subroot i pl s).queue →
        e.index < num ∧
        drainedS subroot (processNeighbors num subroot i pl s).root e.index) ∧
      (∀ p ∈ pl, s.visited p.1 = true ∨
        ∃ e ∈ (processNeighbors num subroot i pl s).queue, e.index = p.1) ∧
      (processNeighbors num subroot i pl s).queue.length
        ≤ s.queue.length + pl.length := by
  intro pl
  induction pl with
  | nil =>
    intro s hpl hinv hdi hq
    exact ⟨hinv, rfl, fun x h => h, fun e he => he, hq, by simp, le_refl _⟩
  | cons p rest ih =>
    intro s hpl hinv hdi hq
    rw [processNeighbors_cons]
    by_cases hv : s.visited p.1 = true
    · rw [if_pos hv]
      obtain ⟨h1, h2, h3, h4, h5, h6, h7⟩ :=
        ih s (fun q hq' => hpl q (List.mem_cons_of_mem _ hq')) hinv hdi hq
      refine ⟨h1, h2, h3, h4, h5, ?_, by simp only [List.length_cons]; omega⟩
      intro q hq'
      rcases List.mem_cons.mp hq' with rfl | hq''
      · exact Or.inl hv
      · exact h6 q hq''
    · rw [if_neg hv]
      have hp1 : p.1 < num := hpl p (List.mem_cons_self _ _)
      by_cases hr : (s.root (subroot p.1)).isNone = true
      · rw [if_pos hr]
        have hdj : ¬ drainedS subroot s.root p.1 := by
          intro hd
          have hd' : (s.root (subroot p.1)).isSome := hd
          rw [Option.isNone_iff_eq_none] at hr
          rw [hr] at hd'
          simp at hd'
        obtain ⟨c1, c2, c3, c4, c5, c6, c7⟩ :=
          carve_step num next₀ subroot outlets elev ctx s hinv i p.1 hi hp1 hdi hdj
            _ _ rfl rfl
        set s₁ : LakeState :=
          { s with
            queue := ⟨p.1, p.2⟩ :: s.queue,
            next := carveFlip num s.next p.1 i,
            root := Function.update s.root (subroot p.1) (s.root (subroot i)) }
          with hs₁
        have hinv₁ : CoreInv num next₀ subroot outlets s₁ := ⟨c1, c2, c3, c4, c5⟩
        have hdi₁ : drainedS subroot s₁.root i := c6 i hdi
        have hq₁ : ∀ e, e ∈ s₁.queue →
            e.index < num ∧ drainedS subroot s₁.root e.index := by
          intro e he
          rcases List.mem_cons.mp he with rfl | he'
          · exact ⟨hp1, c7⟩
          · exact ⟨(hq e he').1, c6 _ (hq e he').2⟩
        obtain ⟨h1, h2, h3, h4, h5, h6, h7⟩ :=
          ih s₁ (fun q hq' => hpl q (List.mem_cons_of_mem _ hq')) hinv₁ hdi₁ hq₁
        refine ⟨h1, h2, ?_, ?_, h5, ?_, ?_⟩
        · intro x hx
          exact h3 x (c6 x hx)
        · intro e he
          exact h4 e (List.mem_cons_of_mem _ he)
        · intro q hq'
          rcases List.mem_cons.mp hq' with rfl | hq''
          · exact Or.inr ⟨⟨q.1, q.2⟩, h4 _ (List.mem_cons_self _ _), rfl⟩
          · exact h6 q hq''
        · have hlen : s₁.queue.length = s.queue.length + 1 := by
            rw [hs₁]
            rfl
          simp only [List.length_cons]
          omega
      · rw [if_neg hr]
        have hdp : drainedS subroot s.root p.1 := by
          show (s.root (subroot p.1)).isSome
          cases ho : s.root (subroot p.1) with
          | none => rw [ho] at hr; simp at hr
          | some v => rfl
        set s₁ : LakeState := { s with queue := ⟨p.1, p.2⟩ :: s.queue } with hs₁
        have hinv₁ : CoreInv num next₀ subroot outlets s₁ :=
          ⟨hinv.nrange, hinv.frozen, hinv.reach, hinv.outFix, hinv.outRoot⟩
        have hq₁ : ∀ e, e ∈ s₁.queue →
            e.index < num ∧ drainedS subroot s₁.root e.index := by
          intro e he
          rcases List.mem_cons.mp he with rfl | he'
          · exact ⟨hp1, hdp⟩
          · exact hq e he'
        obtain ⟨h1, h2, h3, h4, h5, h6, h7⟩ :=
          ih s₁ (fun q hq' => hpl q (List.mem_cons_of_mem _ hq')) hinv₁ hdi hq₁
        refine ⟨h1, h2, h3, ?_, h5, ?_, ?_⟩
        · intro e he
          exact h4 e (List.mem_cons_of_mem _ he)
        · intro q hq'
          rcases List.mem_cons.mp hq' with rfl | hq''
          · exact Or.inr ⟨⟨q.1, q.2⟩, h4 _ (List.mem_cons_self _ _), rfl⟩
          · exact h6 q hq''
        · have hlen : s₁.queue.length = s.queue.length + 1 := by
            rw [hs₁]
            rfl
          simp only [List.length_cons]
          omega

/-- Writing `root[i] = root[subroot[i]]` (done for each popped site) never
changes which sites are drained: `drainedS` only reads idempotent subroot
cells. -/
theorem root_self_update_drain (num : ℕ) (next₀ subroot : ℕ → ℕ)
    (outlets : List ℕ) (elev : ℕ → ℚ)
    (ctx : CarveCtx num next₀ subroot outlets elev)
    (root : ℕ → Option ℕ) (i x : ℕ) (hx : x < num) :
    drainedS subroot (Function.update root i (root (subroot i))) x ↔
      drainedS subroot root x := by
  unfold drainedS
  by_cases hc : subroot x = i
  · have hsb : subroot i = i := by rw [← hc]; exact ctx.sb_idem x hx
    rw [hc, Function.update_same, hsb]
  · rw [Function.update_noteq hc]

theorem lakeLoop_succ (num : ℕ) (subroot : ℕ → ℕ) (nbrs : ℕ → List (ℕ × ℚ))
    (fuel : ℕ) (s : LakeState) :
    lakeLoop num subroot nbrs (fuel+1) s =
      match ridgePop s.queue with
      | none => s
      | some (e, rest) =>
        if s.visited e.index then lakeLoop num subroot nbrs fuel { s with queue := rest }
        else
          let s' := processNeighbors num subroot e.index (nbrs e.index)
            { s with queue := rest }
          lakeLoop num subroot nbrs fuel
            { s' with
              root := Function.update s'.root e.index (s'.root (subroot e.index)),
              visited := Function.update s'.visited e.index true } := rfl

/-- Running the Phase C loop with enough fuel empties the queue while
preserving both invariants; visited sites stay visited. -/
theorem lakeLoop_run (num : ℕ) (next₀ subroot : ℕ → ℕ) (outlets : List ℕ)
    (elev : ℕ → ℚ) (nbrs : ℕ → List (ℕ × ℚ))
    (ctx : CarveCtx num next₀ subroot outlets elev)
    (hnb : ∀ i, i < num → ∀ p ∈ nbrs i, p.1 < num) :
    ∀ (fuel : ℕ) (s : LakeState),
      CoreInv num next₀ subroot outlets s →
      QueueInv num subroot nbrs outlets s →
      s.queue.length + (maxDeg num nbrs + 1) * unvis num s ≤ fuel →
      CoreInv num next₀ subroot outlets (lakeLoop num subroot nbrs fuel s) ∧
      QueueInv num subroot nbrs outlets (lakeLoop num subroot nbrs fuel s) ∧
      (lakeLoop num subroot nbrs fuel s).queue = [] ∧
      (∀ x, s.visited x = true → (lakeLoop num subroot nbrs fuel s).visited x = true) := by
  intro fuel
  induction fuel with
  | zero =>
    intro s hcore hqueue hμ
    have hq0 : s.queue = [] := List.length_eq_zero.mp (by omega)
    exact ⟨hcore, hqueue, hq0, fun x h => h⟩
  | succ fuel ih =>
    intro s hcore hqueue hμ
    cases hpop : ridgePop s.queue with
    | none =>
      have hq0 : s.queue = [] := ridgePop_none_iff.mp hpop
      have hloop : lakeLoop num subroot nbrs (fuel+1) s = s := by
        rw [lakeLoop_succ, hpop]
      rw [hloop]
      exact ⟨hcore, hqueue, hq0, fun x h => h⟩
    | some pr =>
      obtain ⟨e, rest⟩ := pr
      obtain ⟨hemem, hrest⟩ := ridgePop_mem hpop
      have herase : ∀ e', e' ∈ s.queue → e' = e ∨ e' ∈ rest := by
        intro e' he'
        by_cases h : e' = e
        · exact Or.inl h
        · exact Or.inr (by rw [hrest]; exact (List.mem_erase_of_ne h).mpr he')
      have hsub : ∀ e', e' ∈ rest → e' ∈ s.queue := by
        intro e' he'
        rw [hrest] at he'
        exact List.erase_subset _ _ he'
      have hlen : rest.length + 1 = s.queue.length := ridgePop_length hpop
      have hei : e.index < num := hqueue.qrange e hemem
      have hed : drainedS subroot s.root e.index := hqueue.qdrained e hemem
      by_cases hv : s.visited e.index = true
      · have hloop : lakeLoop num subroot nbrs (fuel+1) s
            = lakeLoop num subroot nbrs fuel { s with queue := rest } := by
          rw [lakeLoop_succ, hpop]
          dsimp only
          rw [if_pos hv]
        rw [hloop]
        have hcore₁ : CoreInv num next₀ subroot outlets { s with queue := rest } :=
          ⟨hcore.nrange, hcore.frozen, hcore.reach, hcore.outFix, hcore.outRoot⟩
        have hqueue₁ : QueueInv num subroot nbrs outlets { s with queue := rest } := by
          refine ⟨?_, ?_, ?_, ?_, hqueue.visDrained⟩
          · intro e' he'; exact hqueue.qrange e' (hsub e' he')
          · intro e' he'; exact hqueue.qdrained e' (hsub e' he')
          · intro x hx p hp
            rcases hqueue.pend x hx p hp with h | ⟨e', he', hei'⟩
            · exact Or.inl h
            · rcases herase e' he' with rfl | he''
              · exact Or.inl (by rw [← hei']; exact hv)
              · exact Or.inr ⟨e', he'', hei'⟩
          · intro o ho
            rcases hqueue.outSeen o ho with h | ⟨e', he', hei'⟩
            · exact Or.inl h
            · rcases herase e' he' with rfl | he''
              · exact Or.inl (by rw [← hei']; exact hv)
              · exact Or.inr ⟨e', he'', hei'⟩
        have hμ₁ : rest.length + (maxDeg num nbrs + 1) *
            unvis num { s with queue := rest } ≤ fuel := by
          have huv : unvis num { s with queue := rest } = unvis num s := rfl
          rw [huv]
          omega
        exact ih _ hcore₁ hqueue₁ hμ₁
      · have hvf : s.visited e.index = false := by simpa using hv
        set s₁ : LakeState := { s with queue := rest } with hs₁
        have hcore₁ : CoreInv num next₀ subroot outlets s₁ :=
          ⟨hcore.nrange, hcore.frozen, hcore.reach, hcore.outFix, hcore.outRoot⟩
        have hq₁ : ∀ e', e' ∈ s₁.queue →
            e'.index < num ∧ drainedS subroot s₁.root e'.index := by
          intro e' he'
          exact ⟨hqueue.qrange e' (hsub e' he'), hqueue.qdrained e' (hsub e' he')⟩
        obtain ⟨p1, p2, p3, p4, p5, p6, p7⟩ :=
          processNeighbors_inv num next₀ subroot outlets elev ctx e.index hei
            (nbrs e.index) s₁ (hnb e.index hei) hcore₁ hed hq₁
        set s₂ : LakeState := processNeighbors num subroot e.index (nbrs e.index) s₁
          with hs₂
        set s₃ : LakeState :=
          { s₂ with
            root := Function.update s₂.root e.index (s₂.root (subroot e.index)),
            visited := Function.update s₂.visited e.index true }
          with hs₃
        have hloop : lakeLoop num subroot nbrs (fuel+1) s
            = lakeLoop num subroot nbrs fuel s₃ := by
          rw [lakeLoop_succ, hpop]
          dsimp only
          rw [if_neg hv]
        have hdr3 : ∀ x, x < num →
            (drainedS subroot s₃.root x ↔ drainedS subroot s₂.root x) := by
          intro x hx
          show drainedS subroot
            (Function.update s₂.root e.index (s₂.root (subroot e.index))) x ↔ _
          exact root_self_update_drain num next₀ subroot outlets elev ctx
            s₂.root e.index x hx
        have hvis3 : s₃.visited = Function.update s.visited e.index true := by
          show Function.update s₂.visited e.index true = _
          rw [p2]
        have houtroot3 : ∀ o, o ∈ outlets → (s₃.root o).isSome := by
          intro o ho
          show (Function.update s₂.root e.index (s₂.root (subroot e.index)) o).isSome
          by_cases hoe : o = e.index
          · rw [hoe, Function.update_same]
            exact p3 e.index hed
          · rw [Function.update_noteq hoe]
            exact p1.outRoot o ho
        have hcore₃ : CoreInv num next₀ subroot outlets s₃ := by
          refine ⟨p1.nrange, ?_, ?_, p1.outFix, houtroot3⟩
          · intro x hx hnd
            exact p1.frozen x hx (fun h => hnd ((hdr3 x hx).mpr h))
          · intro x hx hd
            obtain ⟨n, hno, hncl⟩ := p1.reach x hx ((hdr3 x hx).mp hd)
            refine ⟨n, hno, ?_⟩
            intro m hm
            exact ⟨(hncl m hm).1, (hdr3 _ (hncl m hm).1).mpr (hncl m hm).2⟩
        have hqueue₃ : QueueInv num subroot nbrs outlets s₃ := by
          refine ⟨?_, ?_, ?_, ?_, ?_⟩
          · intro e' he'
            exact (p5 e' he').1
          · intro e' he'
            exact (hdr3 _ (p5 e' he').1).mpr (p5 e' he').2
          · intro x hx p hp
            rw [hvis3] at hx
            by_cases hxe : x = e.index
            · subst hxe
              rcases p6 p hp with hvp | ⟨e', he', hei'⟩
              · refine Or.inl ?_
                rw [hvis3]
                by_cases hpe : p.1 = e.index
                · rw [hpe, Function.update_same]
                · rw [Function.update_noteq hpe]; exact hvp
              · exact Or.inr ⟨e', he', hei'⟩
            · rw [Function.update_noteq hxe] at hx
              rcases hqueue.pend x hx p hp with hvp | ⟨e', he', hei'⟩
              · refine Or.inl ?_
                rw [hvis3]
                by_cases hpe : p.1 = e.index
                · rw [hpe, Function.update_same]
                · rw [Function.update_noteq hpe]; exact hvp
              · rcases herase e' he' with rfl | he''
                · refine Or.inl ?_
                  rw [hvis3, ← hei', Function.update_same]
                · exact Or.inr ⟨e', p4 e' he'', hei'⟩
          · intro o ho
            rcases hqueue.outSeen o ho with hvo | ⟨e', he', hei'⟩
            · refine Or.inl ?_
              rw [hvis3]
              by_cases hoe : o = e.index
              · rw [hoe, Function.update_same]
              · rw [Function.update_noteq hoe]; exact hvo
            · rcases herase e' he' with rfl | he''
              · refine Or.inl ?_
                rw [hvis3, ← hei', Function.update_same]
              · exact Or.inr ⟨e', p4 e' he'', hei'⟩
          · intro x hx
            rw [hvis3] at hx
            by_cases hxe : x = e.index
            · subst hxe
              exact ⟨hei, (hdr3 _ hei).mpr (p3 _ hed)⟩
            · rw [Function.update_noteq hxe] at hx
              obtain ⟨hxn, hxd⟩ := hqueue.visDrained x hx
              exact ⟨hxn, (hdr3 _ hxn).mpr (p3 _ hxd)⟩
        have hq3len : s₃.queue.length ≤ rest.length + maxDeg num nbrs := by
          have hd := maxDeg_ge num nbrs e.index hei
          have hq1r : s₁.queue = rest := rfl
          have hq31 : s₃.queue = s₂.queue := rfl
          rw [hq31]
          rw [hq1r] at p7
          omega
        have hunvis3 : unvis num s₃ + 1 = unvis num s := by
          unfold unvis
          have hv1 : s₁.visited = s.visited := rfl
          simp only [hvis3, p2, hv1]
          exact unvis_update num s.visited e.index hei hvf
        have hμ₃ : s₃.queue.length + (maxDeg num nbrs + 1) * unvis num s₃ ≤ fuel := by
          rw [← hunvis3] at hμ
          have hmul : (maxDeg num nbrs + 1) * (unvis num s₃ + 1)
              = (maxDeg num nbrs + 1) * unvis num s₃ + (maxDeg num nbrs + 1) := by
            ring
          rw [hmul] at hμ
          omega
        rw [hloop]
        obtain ⟨r1, r2, r3, r4⟩ := ih s₃ hcore₃ hqueue₃ hμ₃
        refine ⟨r1, r2, r3, ?_⟩
        intro x hx
        apply r4
        rw [hvis3]
        by_cases hxe : x = e.index
        · rw [hxe, Function.update_same]
        · rw [Function.update_noteq hxe]; exact hx

theorem class_const (num : ℕ) (next₀ subroot : ℕ → ℕ) (outlets : List ℕ)
    (elev : ℕ → ℚ) (ctx : CarveCtx num next₀ subroot outlets elev)
    (x : ℕ) (hx : x < num) : ∀ m, subroot (next₀^[m] x) = subroot x := by
  have hrange : ∀ m, next₀^[m] x < num := iterate_lt_num num next₀ x hx ctx.n0_range
  intro m
  induction m with
  | zero => rfl
  | succ k ih => rw [Function.iterate_succ_apply', ctx.sb_next _ (hrange k), ih]

theorem foldl_push_mem (L : List ℕ) :
    ∀ (init : List RidgeElement) (e : RidgeElement),
      e ∈ L.foldl (fun q o => (⟨o, 0⟩ : RidgeElement) :: q) init ↔
        (∃ o ∈ L, e = ⟨o, 0⟩) ∨ e ∈ init := by
  induction L with
  | nil => intro init e; simp
  | cons a rest ih =>
    intro init e
    rw [List.foldl_cons, ih]
    constructor
    · rintro (⟨o, ho, rfl⟩ | he)
      · exact Or.inl ⟨o, List.mem_cons_of_mem _ ho, rfl⟩
      · rcases List.mem_cons.mp he with rfl | he'
        · exact Or.inl ⟨a, List.mem_cons_self _ _, rfl⟩
        · exact Or.inr he'
    · rintro (⟨o, ho, rfl⟩ | he)
      · rcases List.mem_cons.mp ho with rfl | ho'
        · exact Or.inr (List.mem_cons_self _ _)
        · exact Or.inl ⟨o, ho', rfl⟩
      · exact Or.inr (List.mem_cons_of_mem _ he)

theorem foldl_push_length (L : List ℕ) :
    ∀ init : List RidgeElement,
      (L.foldl (fun q o => (⟨o, 0⟩ : RidgeElement) :: q) init).length
        = L.length + init.length := by
  induction L with
  | nil => intro init; simp
  | cons a rest ih =>
    intro init
    rw [List.foldl_cons, ih]
    simp only [List.length_cons]
    omega

theorem foldl_root_eval (L : List ℕ) :
    ∀ (r₀ : ℕ → Option ℕ) (x : ℕ),
      L.foldl (fun r o => Function.update r o (some o)) r₀ x
        = if x ∈ L then some x else r₀ x := by
  induction L with
  | nil => intro r₀ x; simp
  | cons a rest ih =>
    intro r₀ x
    rw [List.foldl_cons, ih]
    by_cases hx : x ∈ rest
    · rw [if_pos hx, if_pos (List.mem_cons_of_mem _ hx)]
    · rw [if_neg hx]
      by_cases hxa : x = a
      · subst hxa
        rw [Function.update_same, if_pos (List.mem_cons_self _ _)]
      · rw [Function.update_noteq hxa, if_neg (by simp [hxa, hx])]

/-- End-to-end specification of `remove_lakes_from_stream_tree`: outlets
keep their self-loops, the forest stays in range, and — when every site is
graph-connected to an outlet — every site's flow reaches an outlet. -/
theorem remove_lakes_spec (num : ℕ) (next₀ subroot : ℕ → ℕ) (outlets : List ℕ)
    (elev : ℕ → ℚ) (nbrs : ℕ → List (ℕ × ℚ))
    (ctx : CarveCtx num next₀ subroot outlets elev)
    (hnb : ∀ i, i < num → ∀ p ∈ nbrs i, p.1 < num)
    (hconn : ∀ i, i < num → ReachGraph nbrs outlets i) :
    (∀ o, o ∈ outlets →
      remove_lakes_from_stream_tree next₀ num nbrs outlets subroot o = o) ∧
    (∀ x, x < num →
      remove_lakes_from_stream_tree next₀ num nbrs outlets subroot x < num) ∧
    (∀ i, i < num →
      ∃ n, (remove_lakes_from_stream_tree next₀ num nbrs outlets subroot)^[n] i
        ∈ outlets) := by
  set s₀ : LakeState :=
    { queue := outlets.foldl (fun q o => (⟨o, 0⟩ : RidgeElement) :: q) []
      root := outlets.foldl (fun r o => Function.update r o (some o)) (fun _ => none)
      visited := fun _ => false
      next := next₀ }
    with hs₀
  have hrl : remove_lakes_from_stream_tree next₀ num nbrs outlets subroot
      = (lakeLoop num subroot nbrs (lakeFuel num nbrs outlets) s₀).next := rfl
  have hroot₀ : ∀ x, s₀.root x = if x ∈ outlets then some x else none :=
    fun x => foldl_root_eval outlets (fun _ => none) x
  have hd₀ : ∀ x, drainedS subroot s₀.root x ↔ subroot x ∈ outlets := by
    intro x
    unfold drainedS
    rw [hroot₀ (subroot x)]
    by_cases hm : subroot x ∈ outlets
    · rw [if_pos hm]
      simp [hm]
    · rw [if_neg hm]
      simp [hm]
  have hvis₀ : ∀ x, s₀.visited x = false := fun _ => rfl
  have hcore₀ : CoreInv num next₀ subroot outlets s₀ := by
    refine ⟨ctx.n0_range, fun x hx _ => rfl, ?_, ?_, ?_⟩
    · intro x hx hd
      obtain ⟨n, hn⟩ := ctx.sb_reach x hx
      refine ⟨n, by rw [hn]; exact (hd₀ x).mp hd, ?_⟩
      intro m hm
      refine ⟨iterate_lt_num num next₀ x hx ctx.n0_range m, ?_⟩
      rw [hd₀, class_const num next₀ subroot outlets elev ctx x hx m]
      exact (hd₀ x).mp hd
    · exact fun o ho => (ctx.sb_out o ho).2.1
    · intro o ho
      rw [hroot₀ o, if_pos ho]
      rfl
  have hqueue₀ : QueueInv num subroot nbrs outlets s₀ := by
    refine ⟨?_, ?_, ?_, ?_, ?_⟩
    · intro e he
      rcases (foldl_push_mem outlets [] e).mp he with ⟨o, ho, rfl⟩ | he'
      · exact (ctx.sb_out o ho).2.2
      · simp at he'
    · intro e he
      rcases (foldl_push_mem outlets [] e).mp he with ⟨o, ho, rfl⟩ | he'
      · rw [hd₀]
        show subroot o ∈ outlets
        rw [(ctx.sb_out o ho).1]
        exact ho
      · simp at he'
    · intro x hx
      rw [hvis₀ x] at hx
      simp at hx
    · intro o ho
      exact Or.inr ⟨⟨o, 0⟩, (foldl_push_mem outlets [] _).mpr (Or.inl ⟨o, ho, rfl⟩), rfl⟩
    · intro x hx
      rw [hvis₀ x] at hx
      simp at hx
  have hunvis₀ : unvis num s₀ = num := by
    unfold unvis
    have hv : s₀.visited = fun _ => false := rfl
    simp [hv]
  have hqlen₀ : s₀.queue.length = outlets.length := by
    have := foldl_push_length outlets []
    simpa using this
  have hμ₀ : s₀.queue.length + (maxDeg num nbrs + 1) * unvis num s₀
      ≤ lakeFuel num nbrs outlets := by
    unfold lakeFuel
    rw [hqlen₀, hunvis₀]
    omega
  obtain ⟨rcore, rqueue, rempty, -⟩ :=
    lakeLoop_run num next₀ subroot outlets elev nbrs ctx hnb
      (lakeFuel num nbrs outlets) s₀ hcore₀ hqueue₀ hμ₀
  have hvisF : ∀ i, ReachGraph nbrs outlets i →
      (lakeLoop num subroot nbrs (lakeFuel num nbrs outlets) s₀).visited i = true := by
    intro i h
    induction h with
    | base o ho =>
      rcases rqueue.outSeen o ho with hv | ⟨e', he', -⟩
      · exact hv
      · rw [rempty] at he'
        simp at he'
    | step i j d hi hj ih =>
      rcases rqueue.pend i ih (j, d) hj with hv | ⟨e', he', -⟩
      · exact hv
      · rw [rempty] at he'
        simp at he'
  refine ⟨?_, ?_, ?_⟩
  · intro o ho
    rw [hrl]
    exact rcore.outFix o ho
  · intro x hx
    rw [hrl]
    exact rcore.nrange x hx
  · intro i hi
    have hvi := hvisF i (hconn i hi)
    obtain ⟨-, hdi⟩ := rqueue.visDrained i hvi
    obtain ⟨n, hn, -⟩ := rcore.reach i hi hdi
    rw [hrl]
    exact ⟨n, hn⟩

/-- **C2.** For every input whose outlet list is non-empty, in range, with
in-range neighbor lists, and in which every site is graph-connected to an
outlet, the `next` vector returned by `StreamTree::construct` satisfies:
`next[o] == o` iff `o` is an outlet, and iterating `next` from any site
reaches an outlet within `num` steps (so the forest has no cycles other
than outlet self-loops). -/
theorem claim_C2 (num : ℕ) (elev : ℕ → ℚ) (nbrs : ℕ → List (ℕ × ℚ))
    (outlets : List ℕ)
    (_hne : outlets ≠ [])
    (hout : ∀ o, o ∈ outlets → o < num)
    (hnb : ∀ i, i < num → ∀ p ∈ nbrs i, p.1 < num)
    (hconn : ∀ i, i < num → ReachGraph nbrs outlets i) :
    (∀ o, o < num →
      (StreamTree.construct num elev nbrs outlets o = o ↔ o ∈ outlets)) ∧
    (∀ i, i < num →
      ∃ n, n ≤ num ∧ (StreamTree.construct num elev nbrs outlets)^[n] i ∈ outlets) := by
  have hio : ∀ x, (outlets.contains x = true) ↔ x ∈ outlets := fun x => List.elem_iff
  set is_outlet : ℕ → Bool := fun i => outlets.contains i with hiso
  set next₀ : ℕ → ℕ := construct_initial_stream_tree num elev nbrs is_outlet with hn₀
  set fr := find_roots_with_lakes num is_outlet next₀ with hfr
  have hcon : StreamTree.construct num elev nbrs outlets
      = if fr.2 = false then next₀
        else remove_lakes_from_stream_tree next₀ num nbrs outlets
          (fun i => (fr.1 i).getD i) := rfl
  have H : ∀ i, i < num → next₀ i < num ∧ (next₀ i = i ∨ elev (next₀ i) < elev i) := by
    intro i hi
    rcases initial_tree_shape num elev nbrs is_outlet i with hsl | ⟨hlt, p, hp, hpe⟩
    · rw [← hn₀] at hsl
      rw [hsl]
      exact ⟨hi, Or.inl rfl⟩
    · rw [← hn₀] at hlt hpe
      exact ⟨by rw [hpe]; exact hnb i hi p hp, Or.inr hlt⟩
  have houtlet : ∀ o, o < num → is_outlet o = true → next₀ o = o := by
    intro o _ ho
    rw [hn₀]
    exact initial_tree_outlet num elev nbrs is_outlet o ho
  obtain ⟨hall, hinv⟩ := find_roots_spec num is_outlet next₀ elev H houtlet
  rw [← hfr] at hall hinv
  have hback : ∀ o, o ∈ outlets → next₀ o = o := fun o ho =>
    houtlet o (hout o ho) ((hio o).mpr ho)
  have hsr : ∀ i, i < num → ∃ r, fr.1 i = some r :=
    fun i hi => Option.isSome_iff_exists.mp (hall i hi)
  by_cases hlake : fr.2 = false
  · have hnx : StreamTree.construct num elev nbrs outlets = next₀ := by
      rw [hcon, if_pos hlake]
    rw [hnx]
    constructor
    · intro o ho
      constructor
      · intro hoo
        by_contra hno
        obtain ⟨r, hr⟩ := hsr o ho
        obtain ⟨-, -, -, -, ⟨n, hn⟩, hlf⟩ := hinv.coherent o r ho hr
        have hro : r = o := by rw [← hn]; exact iterate_stable next₀ o hoo n
        subst hro
        exact hno ((hio r).mp (hlf hlake))
      · intro ho'
        exact hback o ho'
    · intro i hi
      obtain ⟨r, hr⟩ := hsr i hi
      obtain ⟨-, -, -, -, ⟨n, hn⟩, hlf⟩ := hinv.coherent i r hi hr
      have hro : next₀^[n] i ∈ outlets := by rw [hn]; exact (hio r).mp (hlf hlake)
      exact first_hit num next₀ outlets i hi (fun x hx => (H x hx).1) ⟨n, hro⟩
  · have hnx : StreamTree.construct num elev nbrs outlets
        = remove_lakes_from_stream_tree next₀ num nbrs outlets
          (fun i => (fr.1 i).getD i) := by
      rw [hcon, if_neg hlake]
    set subroot : ℕ → ℕ := fun i => (fr.1 i).getD i with hsb
    have hsubr : ∀ i r, i < num → fr.1 i = some r → subroot i = r := by
      intro i r _ hr
      rw [hsb]
      simp [hr]
    have ctx : CarveCtx num next₀ subroot outlets elev := by
      refine ⟨fun x hx => (H x hx).1, fun x hx => (H x hx).2, ?_, ?_, ?_, ?_, ?_, ?_⟩
      · intro x hx
        obtain ⟨r, hr⟩ := hsr x hx
        obtain ⟨-, hrnum, -, -, -, -⟩ := hinv.coherent x r hx hr
        rw [hsubr x r hx hr]
        exact hrnum
      · intro x hx
        obtain ⟨r, hr⟩ := hsr x hx
        obtain ⟨-, hrnum, hrr, -, -, -⟩ := hinv.coherent x r hx hr
        rw [hsubr x r hx hr, hsubr r r hrnum hrr]
      · intro x hx
        obtain ⟨r, hr⟩ := hsr x hx
        obtain ⟨hnr, -, -, -, -, -⟩ := hinv.coherent x r hx hr
        rw [hsubr x r hx hr, hsubr (next₀ x) r (H x hx).1 hnr]
      · intro x hx
        obtain ⟨r, hr⟩ := hsr x hx
        obtain ⟨-, -, -, -, hreach, -⟩ := hinv.coherent x r hx hr
        rw [hsubr x r hx hr]
        exact hreach
      · intro x hx
        obtain ⟨r, hr⟩ := hsr x hx
        obtain ⟨-, -, -, hterm, -, -⟩ := hinv.coherent x r hx hr
        rw [hsubr x r hx hr]
        rcases hterm with ho | hsl
        · exact Or.inl ((hio r).mp ho)
        · exact Or.inr hsl
      · intro o ho
        have honum := hout o ho
        have hsro : fr.1 o = some o := hinv.outlet_self o honum ((hio o).mpr ho)
        exact ⟨hsubr o o honum hsro, hback o ho, honum⟩
    obtain ⟨rfix, rrange, rreach⟩ :=
      remove_lakes_spec num next₀ subroot outlets elev nbrs ctx hnb hconn
    rw [hnx]
    constructor
    · intro o ho
      constructor
      · intro hoo
        by_contra hno
        obtain ⟨n, hn⟩ := rreach o ho
        rw [iterate_stable _ o hoo n] at hn
        exact hno hn
      · intro ho'
        exact rfix o ho'
    · intro i hi
      exact first_hit num _ outlets i hi rrange (rreach i hi)

theorem claim_C2_witness :
    (∀ o, o < 3 →
      (StreamTree.construct 3 elevW nbrsW [0] o = o ↔ o ∈ [0])) ∧
    (∀ i, i < 3 →
      ∃ n, n ≤ 3 ∧ (StreamTree.construct 3 elevW nbrsW [0])^[n] i ∈ [0]) :=
  claim_C2 3 elevW nbrsW [0] (by decide) (by decide) (by decide)
    (by
      intro i hi
      have h0 : ReachGraph nbrsW [0] 0 := ReachGraph.base 0 (by decide)
      have h1 : ReachGraph nbrsW [0] 1 := ReachGraph.step 0 1 1 h0 (by decide)
      have h2 : ReachGraph nbrsW [0] 2 := ReachGraph.step 1 2 1 h1 (by decide)
      interval_cases i
      · exact h0
      · exact h1
      · exact h2)
